import Mathlib

/-!
Verification development for the Tanuki-Parser segmentation engine.

The engine (trie dictionary lookup + Viterbi dynamic programming + token
recombination) is shallowly embedded here:

* JS strings that are indexed character by character become `List Char`.
* JS objects used as dictionaries become insertion-ordered association
  lists (`List (key × value)`); property read is `assocFind`, property
  write is `setAssoc` (replace in place when the key exists, append when
  it does not), matching JS object key semantics.
* The engine accumulates `Math.log` of probabilities additively.  We keep
  scores in the exact product domain over `ℚ` instead: the initial score
  `0 = log 1` becomes `1`, every additive step `+ log p` becomes `* p`,
  and score comparisons are unchanged because `log` is strictly monotone
  on the positive probabilities the engine consumes.  `1e-8` becomes the
  exact rational `1 / 10^8`.
* The JS `viterbiSegment` receives `findMorphsFromTrie` as an explicit
  argument and the callers always pass the trie module's function; the
  embedding calls `findMorphsFromTrie` directly.
-/

/-- The character class of the JS regex `\s` (ECMAScript WhiteSpace and
LineTerminator characters), used by `viterbiSegment` to detect whitespace. -/
def isWs (c : Char) : Bool :=
  c = ' ' || c = '\t' || c = '\n' || c = '\x0b' || c = '\x0c' || c = '\r' ||
  c = ' ' || c = ' ' ||
  (0x2000 ≤ c.toNat && c.toNat ≤ 0x200a) ||
  c = ' ' || c = ' ' || c = ' ' || c = ' ' ||
  c = '　' || c = '﻿'

/-- `text.slice(i, j)` of JS for `i ≤ j`. -/
def textSlice (text : List Char) (i j : Nat) : List Char :=
  (text.drop i).take (j - i)

/-- JS object property read on an association list: the value stored at
key `k`, if any. -/
def assocFind {α β : Type} [DecidableEq α] (k : α) : List (α × β) → Option β
  | [] => none
  | p :: rest => if p.1 = k then some p.2 else assocFind k rest

/-- JS object property write: replace the value in place when the key is
present, append a new key at the end otherwise. -/
def setAssoc {α β : Type} [DecidableEq α] (k : α) (v : β) : List (α × β) → List (α × β)
  | [] => [(k, v)]
  | p :: rest => if p.1 = k then (k, v) :: rest else p :: setAssoc k v rest

/-- The `type` field of a token: `"text"`, `"whitespace"` or `"skipped"`. -/
inductive TokType : Type where
  | text
  | whitespace
  | skipped
deriving DecidableEq

/-- A token object `{ morph, pos, type, transProb }` as built by the engine. -/
structure Token where
  morph : List Char
  pos : String
  type : TokType
  transProb : ℚ
deriving DecidableEq

/-- A word object `{ tokens }` as produced by `recombineTokens`. -/
structure Word where
  tokens : List Token
deriving DecidableEq

/-- A DP-table state `{ score, backPointer, token }`.  The JS code stores
`backPointer: null, token: null` only in the initial state (`root`) and a
non-null pair in every state created by `updateViterbiTable` (`cons`). -/
inductive VState : Type where
  | root (score : ℚ)
  | cons (score : ℚ) (backPointer : VState) (token : Token)
deriving DecidableEq

/-- The `score` field of a state. -/
def VState.score : VState → ℚ
  | .root s => s
  | .cons s _ _ => s

/-- A trie node's children object: character → (`ismorph` flag, children). -/
inductive TrieNode : Type where
  | mk (entries : List (Char × Bool × TrieNode))

/-- The child map of a trie node object. -/
def TrieNode.entries : TrieNode → List (Char × Bool × TrieNode)
  | .mk es => es

/-- One character-by-character insertion of a morph into the trie, as done
by the inner loop of `buildMorphTrie`: create missing nodes, mark the node
of the final character as a morph end. -/
def insertMorph : TrieNode → List Char → TrieNode
  | node, [] => node
  | node, c :: rest =>
    let fc :=
      match assocFind c node.entries with
      | some fc => fc
      | none => (false, TrieNode.mk [])
    let flag := if rest.isEmpty then true else fc.1
    TrieNode.mk (setAssoc c (flag, insertMorph fc.2 rest) node.entries)

/-- `buildMorphTrie`: fold every morph of the dictionary into the trie. -/
def buildMorphTrie (morphs : List (List Char × String)) : TrieNode :=
  morphs.foldl (fun root m => insertMorph root m.1) (TrieNode.mk [])

/-- The traversal loop of `findMorphsFromTrie`, generalized over the node
reached so far and the characters already consumed since `start`. -/
def findMorphsAux (start : Nat) : TrieNode → List Char → List Char → List (List Char × Nat)
  | _, _, [] => []
  | node, consumed, c :: rest =>
    match assocFind c node.entries with
    | none => []
    | some fc =>
      let consumed2 := consumed ++ [c]
      (if fc.1 then [(consumed2, start + consumed2.length)] else []) ++
        findMorphsAux start fc.2 consumed2 rest

/-- `findMorphsFromTrie(trie, text, start)`: all `{ morph, end }` pairs for
dictionary morphs beginning at `start`. -/
def findMorphsFromTrie (trie : TrieNode) (text : List Char) (start : Nat) :
    List (List Char × Nat) :=
  findMorphsAux start trie [] (text.drop start)

/-- Specification-side reading of "`m` is a morph of the trie": following
the characters of `m` from the root reaches a node whose `ismorph` flag is
set.  Stated from the spec's words for the trie-query claim. -/
def nodeHasMorph : TrieNode → List Char → Bool
  | _, [] => false
  | node, c :: rest =>
    match assocFind c node.entries with
    | none => false
    | some fc => if rest.isEmpty then fc.1 else nodeHasMorph fc.2 rest

/-- `buildPosMap`: morph → array of PoS tags, deduplicated, insertion order. -/
def buildPosMap (morphs : List (List Char × String)) : List (List Char × List String) :=
  morphs.foldl (fun pm m =>
    match assocFind m.1 pm with
    | none => setAssoc m.1 [m.2] pm
    | some tags => if m.2 ∈ tags then pm else setAssoc m.1 (tags ++ [m.2]) pm) []

/-- The exact rational standing for the JS constant `1e-8`. -/
def smallProb : ℚ := 1 / 100000000

/-- The transition-probability policy of the Viterbi loop:
`transProb = 1.0`, overridden by the table value when
`prevPos && transitionMap[prevPos] && transitionMap[prevPos][posTag]` is
truthy (so a stored `0` is passed over, JS `0` being falsy), else `1e-8`
when `prevPos` is truthy (non-empty). -/
def transProbPolicy (transitionMap : List (String × List (String × ℚ)))
    (prevPos posTag : String) : ℚ :=
  if prevPos = "" then 1
  else
    match assocFind prevPos transitionMap with
    | none => smallProb
    | some inner =>
      match assocFind posTag inner with
      | none => smallProb
      | some p => if p = 0 then smallProb else p

/-- The whitespace scan `while (end < text.length && /\s/.test(text[end])) end++`,
structurally: `rest` is the remaining text from position `i`. -/
def wsEndAux : List Char → Nat → Nat
  | [], i => i
  | c :: rest, i => if isWs c then wsEndAux rest (i + 1) else i

/-- The end of the whitespace run of `text` starting at position `i`. -/
def wsEnd (text : List Char) (i : Nat) : Nat :=
  wsEndAux (text.drop i) i

/-- One row of the DP table: PoS tag → state, in insertion order. -/
abbrev ViterbiRow := List (String × VState)

/-- `updateViterbiTable`: store the candidate at `(nextIdx, nextPos)` only
when no entry exists there or the stored score is strictly smaller.
`addScore` is the product-domain addend (the step's probability). -/
def updateViterbiTable (viterbiTable : List ViterbiRow) (nextIdx : Nat) (nextPos : String)
    (prevState : VState) (token : Token) (addScore : ℚ) : List ViterbiRow :=
  let newScore := prevState.score * addScore
  let row := viterbiTable.getD nextIdx []
  match assocFind nextPos row with
  | none =>
    viterbiTable.set nextIdx (row ++ [(nextPos, VState.cons newScore prevState token)])
  | some st =>
    if st.score < newScore then
      viterbiTable.set nextIdx (setAssoc nextPos (VState.cons newScore prevState token) row)
    else viterbiTable

/-- Rule 2 of the Viterbi loop: the nested
`for (f of foundMorphs) for (p of posTags)` loops, each iteration proposing
the matched morph with one PoS tag at the morph's end position. -/
def processMatches (posMap : List (List Char × List String))
    (transitionMap : List (String × List (String × ℚ))) (prevPos : String)
    (prevState : VState) (found : List (List Char × Nat)) (tbl : List ViterbiRow) :
    List ViterbiRow :=
  found.foldl (fun acc fm =>
    let posTags := (assocFind fm.1 posMap).getD []
    posTags.foldl (fun acc2 posTag =>
      let transProb := transProbPolicy transitionMap prevPos posTag
      updateViterbiTable acc2 fm.2 posTag prevState
        ⟨fm.1, posTag, TokType.text, transProb⟩ transProb) acc) tbl

/-- The body of the Viterbi loop for one `(idx, prevPos)` state: rule 1
(whitespace run), else rule 2 (dictionary matches × PoS tags), else rule 3
(skip one character) when rule 2 matched nothing (`matched` is set iff the
match list is non-empty).  The enclosing loop guarantees
`idx < text.length`, hence the `none` branch is never taken. -/
def processState (trie : TrieNode) (posMap : List (List Char × List String))
    (transitionMap : List (String × List (String × ℚ))) (text : List Char)
    (tbl : List ViterbiRow) (idx : Nat) (prevPos : String) (prevState : VState) :
    List ViterbiRow :=
  match text.get? idx with
  | none => tbl
  | some c =>
    if isWs c then
      let e := wsEnd text idx
      updateViterbiTable tbl e prevPos prevState
        ⟨textSlice text idx e, "", TokType.whitespace, 1⟩ 1
    else
      let found := findMorphsFromTrie trie text idx
      let tbl2 := processMatches posMap transitionMap prevPos prevState found tbl
      if found.isEmpty then
        updateViterbiTable tbl2 (idx + 1) prevPos prevState
          ⟨[c], "", TokType.skipped, smallProb⟩ smallProb
      else tbl2

/-- The loop `for (const prevPos in viterbiTable[idx])`.  Every rule stores
only at positions strictly beyond `idx`, so row `idx` is unchanged while it
is being iterated and folding over its snapshot is faithful. -/
def processRow (trie : TrieNode) (posMap : List (List Char × List String))
    (transitionMap : List (String × List (String × ℚ))) (text : List Char)
    (tbl : List ViterbiRow) (idx : Nat) : List ViterbiRow :=
  (tbl.getD idx []).foldl
    (fun acc entry => processState trie posMap transitionMap text acc idx entry.1 entry.2) tbl

/-- The freshly allocated table: `text.length + 1` empty rows, with the
start state `{score: log 1, backPointer: null, token: null}` at `(0, "")`. -/
def initTable (text : List Char) : List ViterbiRow :=
  (List.replicate (text.length + 1) ([] : ViterbiRow)).set 0 [("", VState.root 1)]

/-- The whole forward pass `for (let idx = 0; idx < text.length; idx++)`. -/
def runForward (trie : TrieNode) (posMap : List (List Char × List String))
    (transitionMap : List (String × List (String × ℚ))) (text : List Char) :
    List ViterbiRow :=
  (List.range text.length).foldl (processRow trie posMap transitionMap text) (initTable text)

/-- The terminal-state selection loop: the highest-scoring entry of the
final row, first seen winning ties; `none` on an empty row. -/
def bestState (row : ViterbiRow) : Option VState :=
  row.foldl (fun best entry =>
    match best with
    | none => some entry.2
    | some b => if b.score < entry.2.score then some entry.2 else best) none

/-- The back-pointer walk `while (state && state.token)`: most recent token
first. -/
def collectTokens : VState → List Token
  | .root _ => []
  | .cons _ bp t => t :: collectTokens bp

/-- The merge test of `recombineTokens` for two adjacent tokens: the current
PoS must be truthy (non-empty), be a key of the map, and some listed
successor must equal the next token's PoS with both tokens of type text. -/
def mergeable (recombinationMap : List (String × List String)) (cur next : Token) : Bool :=
  if cur.pos = "" then false
  else
    match assocFind cur.pos recombinationMap with
    | none => false
    | some nexts =>
      nexts.any (fun nextPos =>
        decide (next.pos = nextPos) && decide (cur.type = TokType.text) &&
          decide (next.type = TokType.text))

/-- `recombineTokens`: single left-to-right pass merging adjacent pairs. -/
def recombineTokens (tokens : List Token) (recombinationMap : List (String × List String)) :
    List Word :=
  match tokens with
  | [] => []
  | [cur] => [⟨[cur]⟩]
  | cur :: next :: rest =>
    if mergeable recombinationMap cur next then
      ⟨[cur, next]⟩ :: recombineTokens rest recombinationMap
    else
      ⟨[cur]⟩ :: recombineTokens (next :: rest) recombinationMap

/-- `viterbiSegment`: forward pass, best terminal state, backtrace,
recombination. -/
def viterbiSegment (text : List Char) (trie : TrieNode)
    (posMap : List (List Char × List String))
    (transitionMap : List (String × List (String × ℚ)))
    (recombinationMap : List (String × List String)) : List Word :=
  let viterbiTable := runForward trie posMap transitionMap text
  let tokens :=
    match bestState (viterbiTable.getD text.length []) with
    | none => []
    | some best => (collectTokens best).reverse
  recombineTokens tokens recombinationMap

/-- Concatenation of the text spans of a token sequence. -/
def concatTokens (tokens : List Token) : List Char :=
  (tokens.map Token.morph).flatten

/-- The tokens of a word sequence, in output order. -/
def wordsTokens (words : List Word) : List Token :=
  (words.map Word.tokens).flatten

/-- The spans `(start, end)` of the whitespace-typed tokens of a token list
whose first token starts at text position `n`. -/
def wsSpansFrom (n : Nat) : List Token → List (Nat × Nat)
  | [] => []
  | t :: ts =>
    (if t.type = TokType.whitespace then [(n, n + t.morph.length)] else []) ++
      wsSpansFrom (n + t.morph.length) ts

/-- `[a, b)` is a maximal run of contiguous whitespace characters. -/
def MaxRun (text : List Char) (a b : Nat) : Prop :=
  a < b ∧ b ≤ text.length ∧
  (∀ k, a ≤ k → k < b → isWs (text.getD k ' ') = true) ∧
  (a = 0 ∨ isWs (text.getD (a - 1) ' ') = false) ∧
  (b = text.length ∨ isWs (text.getD b ' ') = false)

/-- The path shapes that the forward pass can store in the DP table at a
given position: `rts` is the reversed token list of a state (most recent
token first), exactly as `collectTokens` returns it.  Each constructor
records the facts the corresponding Viterbi rule guarantees. -/
inductive GoodChain (trie : TrieNode) (text : List Char) : Nat → List Token → Prop where
  | nil : GoodChain trie text 0 []
  | ws {i : Nat} {c : Char} {rts : List Token}
      (hc : text.get? i = some c) (hw : isWs c = true)
      (h : GoodChain trie text i rts) :
      GoodChain trie text (wsEnd text i)
        (⟨textSlice text i (wsEnd text i), "", TokType.whitespace, 1⟩ :: rts)
  | txt {i e : Nat} {m : List Char} {tag : String} {p : ℚ} {rts : List Token}
      (hm : (m, e) ∈ findMorphsFromTrie trie text i)
      (h : GoodChain trie text i rts) :
      GoodChain trie text e (⟨m, tag, TokType.text, p⟩ :: rts)
  | skip {i : Nat} {c : Char} {rts : List Token}
      (hc : text.get? i = some c) (hw : isWs c = false)
      (h : GoodChain trie text i rts) :
      GoodChain trie text (i + 1) (⟨[c], "", TokType.skipped, smallProb⟩ :: rts)

/-- Every state stored at any row of the table is reachable by the rules:
its backtrace is a `GoodChain` ending at the row's position. -/
def TableGood (trie : TrieNode) (text : List Char) (tbl : List ViterbiRow) : Prop :=
  ∀ i : Nat, ∀ entry ∈ tbl.getD i [], GoodChain trie text i (collectTokens entry.2)

/-- Every row of the table holds at most one entry per PoS tag. -/
def RowsNodup (tbl : List ViterbiRow) : Prop :=
  ∀ i : Nat, ((tbl.getD i []).map Prod.fst).Nodup

/-- C2: in the forward pass's dictionary-match proposals, an empty previous
PoS yields transition probability exactly 1; a non-empty previous PoS whose
(previous, next) pair is absent from the transition table yields exactly
1e-8; and the policy never produces 0. -/
theorem transProb_policy_spec (tm : List (String × List (String × ℚ)))
    (prevPos posTag : String) :
    (prevPos = "" → transProbPolicy tm prevPos posTag = 1) ∧
    (prevPos ≠ "" → (assocFind prevPos tm).bind (assocFind posTag) = none →
      transProbPolicy tm prevPos posTag = smallProb) ∧
    transProbPolicy tm prevPos posTag ≠ 0 := by
  have hs : smallProb ≠ 0 := by norm_num [smallProb]
  refine ⟨fun h => by simp [transProbPolicy, h], fun h1 h2 => ?_, ?_⟩
  · cases hf : assocFind prevPos tm with
    | none => simp [transProbPolicy, h1, hf]
    | some inner =>
      rw [hf] at h2
      simp only [Option.some_bind] at h2
      simp [transProbPolicy, h1, hf, h2]
  · by_cases h : prevPos = ""
    · simp [transProbPolicy, h]
    · cases hf : assocFind prevPos tm with
      | none => simp [transProbPolicy, h, hf, hs]
      | some inner =>
        cases hg : assocFind posTag inner with
        | none => simp [transProbPolicy, h, hf, hg, hs]
        | some p =>
          by_cases hp : p = 0
          · simp [transProbPolicy, h, hf, hg, hp, hs]
          · simp [transProbPolicy, h, hf, hg, hp]

unseal Rat.mul Rat.inv in
/-- Witness for the transition-probability policy at concrete inputs. -/
theorem transProb_policy_witness :
    transProbPolicy [("n", [("v", 1/2)])] "" "v" = 1 ∧
    transProbPolicy [("n", [("v", 1/2)])] "x" "v" = smallProb ∧
    transProbPolicy [("n", [("v", 1/2)])] "n" "v" ≠ 0 :=
  ⟨(transProb_policy_spec [("n", [("v", 1/2)])] "" "v").1 rfl,
   (transProb_policy_spec [("n", [("v", 1/2)])] "x" "v").2.1 (by decide) (by decide),
   (transProb_policy_spec [("n", [("v", 1/2)])] "n" "v").2.2⟩

unseal Rat.mul Rat.inv in
/-- C4: with dictionary {(今日, noun), (は, particle)}, transition
noun→particle = 0.5 and no recombination rules, segmenting `"今日は"`
returns exactly the two one-token words [今日/noun/text], [は/particle/text]. -/
theorem example1_segmentation :
    viterbiSegment ['今','日','は'] (buildMorphTrie [(['今','日'], "noun"), (['は'], "particle")])
      (buildPosMap [(['今','日'], "noun"), (['は'], "particle")])
      [("noun", [("particle", 1/2)])] [] =
      [⟨[⟨['今','日'], "noun", TokType.text, 1⟩]⟩,
       ⟨[⟨['は'], "particle", TokType.text, 1/2⟩]⟩] := by decide

/-- C1 counterexample: a model is exhibited (the trie matches "X" but the
PoS map gives it no tag) for which the forward pass populates no terminal
state at position N, and `viterbiSegment` still returns a result, the empty
word list — no error of any kind is raised. -/
theorem no_invariant_error_counterexample :
    (runForward (buildMorphTrie [(['X'], "noun")]) [] [] ['X']).getD 1 [] = [] ∧
    viterbiSegment ['X'] (buildMorphTrie [(['X'], "noun")]) [] [] [] = [] := by decide

/-- C1 (amended): whenever the DP row at position N is empty after the
forward pass, the segment entry point returns the empty word sequence (the
code defines no SegmentationInvariantError and never raises). -/
theorem empty_terminal_row_returns_empty (text : List Char) (trie : TrieNode)
    (posMap : List (List Char × List String))
    (transitionMap : List (String × List (String × ℚ)))
    (recombinationMap : List (String × List String))
    (h : (runForward trie posMap transitionMap text).getD text.length [] = []) :
    viterbiSegment text trie posMap transitionMap recombinationMap = [] := by
  simp only [viterbiSegment, h]
  rfl

/-- Witness: the amended C1 theorem applied at the counterexample input. -/
theorem empty_terminal_row_returns_empty_witness :
    viterbiSegment ['X'] (buildMorphTrie [(['X'], "noun")]) [] [] [] = [] :=
  empty_terminal_row_returns_empty ['X'] (buildMorphTrie [(['X'], "noun")]) [] [] []
    (by decide)

/-- C3 counterexample: for the dead-end model of the C1 counterexample the
returned word sequence is empty, so concatenating its token spans does not
reproduce the non-empty input. -/
theorem coverage_counterexample :
    concatTokens (wordsTokens (viterbiSegment ['X'] (buildMorphTrie [(['X'], "noun")]) [] [] []))
      ≠ ['X'] := by decide

/-- Helper: recombination only regroups tokens into words; the concatenated
token sequence of the produced words is the input token sequence. -/
theorem wordsTokens_recombine (m : List (String × List String)) (tokens : List Token) :
    wordsTokens (recombineTokens tokens m) = tokens := by
  induction tokens, m using recombineTokens.induct with
  | case1 rm => simp [recombineTokens, wordsTokens]
  | case2 rm cur => simp [recombineTokens, wordsTokens]
  | case3 rm cur next rest hmerge ih =>
    simp only [recombineTokens, if_pos hmerge, wordsTokens, List.map_cons, List.flatten_cons]
    simp only [wordsTokens] at ih
    simp [ih]
  | case4 rm cur next rest hmerge ih =>
    simp only [recombineTokens, if_neg hmerge, wordsTokens, List.map_cons, List.flatten_cons]
    simp only [wordsTokens] at ih
    simp [ih]

/-- Helper: every word the recombiner emits is a singleton, or a pair of
text-typed tokens allowed by the rule set. -/
theorem recombine_words_shape (m : List (String × List String)) (tokens : List Token) :
    ∀ w ∈ recombineTokens tokens m,
      w.tokens.length = 1 ∨
      (∃ t1 t2, w.tokens = [t1, t2] ∧ t1.type = TokType.text ∧ t2.type = TokType.text ∧
        ∃ nexts, assocFind t1.pos m = some nexts ∧ t2.pos ∈ nexts) := by
  induction tokens, m using recombineTokens.induct with
  | case1 rm => simp [recombineTokens]
  | case2 rm cur => simp [recombineTokens]
  | case3 rm cur next rest hmerge ih =>
    simp only [recombineTokens, if_pos hmerge]
    intro w hw
    rcases List.mem_cons.mp hw with h | h
    · subst h
      right
      refine ⟨cur, next, rfl, ?_⟩
      unfold mergeable at hmerge
      by_cases hp : cur.pos = ""
      · simp [hp] at hmerge
      · rw [if_neg hp] at hmerge
        cases hf : assocFind cur.pos rm with
        | none => rw [hf] at hmerge; cases hmerge
        | some nexts =>
          rw [hf] at hmerge
          simp only [List.any_eq_true, Bool.and_eq_true, decide_eq_true_eq] at hmerge
          obtain ⟨x, hx, ⟨hpos, htype1⟩, htype2⟩ := hmerge
          exact ⟨htype1, htype2, nexts, rfl, hpos ▸ hx⟩
    · exact ih w h
  | case4 rm cur next rest hmerge ih =>
    simp only [recombineTokens, if_neg hmerge]
    intro w hw
    rcases List.mem_cons.mp hw with h | h
    · subst h; left; rfl
    · exact ih w h

/-- Helper: the merge test of the recombiner, as a proposition. -/
theorem mergeable_iff (m : List (String × List String)) (cur next : Token) :
    mergeable m cur next = true ↔
      (cur.pos ≠ "" ∧ cur.type = TokType.text ∧ next.type = TokType.text ∧
        ∃ nexts, assocFind cur.pos m = some nexts ∧ next.pos ∈ nexts) := by
  unfold mergeable
  by_cases hp : cur.pos = ""
  · simp [hp]
  · rw [if_neg hp]
    cases hf : assocFind cur.pos m with
    | none => simp [hp, hf]
    | some nexts =>
      simp only [List.any_eq_true, Bool.and_eq_true, decide_eq_true_eq]
      constructor
      · rintro ⟨x, hx, ⟨hpos, h1⟩, h2⟩
        exact ⟨hp, h1, h2, nexts, rfl, hpos ▸ hx⟩
      · rintro ⟨-, h1, h2, nexts2, hf2, hmem⟩
        obtain rfl : nexts = nexts2 := Option.some.inj hf2
        exact ⟨next.pos, hmem, ⟨rfl, h1⟩, h2⟩

/-- C8 counterexample: with the rule set keyed by the empty PoS tag, both
tokens of kind text and the successor listed, the claim's conditions for a
merge hold, yet the recombiner emits two one-token words: the code
additionally requires the anchor's PoS tag to be non-empty (truthy). -/
theorem recombine_counterexample :
    (assocFind "" [("", ["x"])] = some ["x"]) ∧
    recombineTokens [⟨['a'], "", TokType.text, 1⟩, ⟨['b'], "x", TokType.text, 1⟩] [("", ["x"])] =
      [⟨[⟨['a'], "", TokType.text, 1⟩]⟩, ⟨[⟨['b'], "x", TokType.text, 1⟩]⟩] := by decide

/-- C8 (amended): the recombiner is a single left-to-right pass that merges
the pair at the cursor exactly when the anchor token has kind text and a
non-empty PoS tag that keys the rule set, and the following token exists,
has kind text, and carries a listed successor tag — advancing by 2 on a
merge and by 1 otherwise; with rule verb→{suffix} the tokens
(降, verb, text), (っている, suffix, text) form a single two-token word. -/
theorem recombine_single_pass (m : List (String × List String)) (t1 t2 : Token)
    (rest : List Token) :
    recombineTokens [] m = [] ∧
    recombineTokens [t1] m = [⟨[t1]⟩] ∧
    ((t1.pos ≠ "" ∧ t1.type = TokType.text ∧ t2.type = TokType.text ∧
        ∃ nexts, assocFind t1.pos m = some nexts ∧ t2.pos ∈ nexts) →
      recombineTokens (t1 :: t2 :: rest) m = ⟨[t1, t2]⟩ :: recombineTokens rest m) ∧
    (¬(t1.pos ≠ "" ∧ t1.type = TokType.text ∧ t2.type = TokType.text ∧
        ∃ nexts, assocFind t1.pos m = some nexts ∧ t2.pos ∈ nexts) →
      recombineTokens (t1 :: t2 :: rest) m = ⟨[t1]⟩ :: recombineTokens (t2 :: rest) m) ∧
    recombineTokens [⟨['降'], "verb", TokType.text, 1⟩,
        ⟨['っ','て','い','る'], "suffix", TokType.text, 1⟩] [("verb", ["suffix"])] =
      [⟨[⟨['降'], "verb", TokType.text, 1⟩, ⟨['っ','て','い','る'], "suffix", TokType.text, 1⟩]⟩] := by
  refine ⟨rfl, rfl, fun h => ?_, fun h => ?_, by decide⟩
  · show (if mergeable m t1 t2 then _ else _) = _
    rw [if_pos ((mergeable_iff m t1 t2).mpr h)]
  · show (if mergeable m t1 t2 then _ else _) = _
    rw [if_neg (fun hc => h ((mergeable_iff m t1 t2).mp hc))]

/-- Witness: the merge branch of the recombiner pass at the verb+suffix
example. -/
theorem recombine_single_pass_witness :
    recombineTokens [⟨['降'], "verb", TokType.text, 1⟩,
        ⟨['っ','て','い','る'], "suffix", TokType.text, 1⟩] [("verb", ["suffix"])] =
      ⟨[⟨['降'], "verb", TokType.text, 1⟩, ⟨['っ','て','い','る'], "suffix", TokType.text, 1⟩]⟩ ::
        recombineTokens [] [("verb", ["suffix"])] :=
  (recombine_single_pass [("verb", ["suffix"])] ⟨['降'], "verb", TokType.text, 1⟩
      ⟨['っ','て','い','る'], "suffix", TokType.text, 1⟩ []).2.2.1
    ⟨by decide, rfl, rfl, ["suffix"], by decide, by decide⟩

/-- C10: every word produced by the segment entry point holds exactly one
or exactly two tokens, and a two-token word occurs only when both tokens
have kind text and the recombination rule set permits the pair. -/
theorem segment_words_shape (text : List Char) (trie : TrieNode)
    (posMap : List (List Char × List String))
    (transitionMap : List (String × List (String × ℚ)))
    (recombinationMap : List (String × List String)) :
    ∀ w ∈ viterbiSegment text trie posMap transitionMap recombinationMap,
      w.tokens.length = 1 ∨
      (∃ t1 t2, w.tokens = [t1, t2] ∧ t1.type = TokType.text ∧ t2.type = TokType.text ∧
        ∃ nexts, assocFind t1.pos recombinationMap = some nexts ∧ t2.pos ∈ nexts) :=
  recombine_words_shape recombinationMap _

unseal Rat.mul Rat.inv in
/-- Witness: the word-shape theorem applied to a concrete output word of
the C4 model. -/
theorem segment_words_shape_witness :
    (⟨[⟨['今','日'], "noun", TokType.text, 1⟩]⟩ : Word).tokens.length = 1 ∨
    (∃ t1 t2, (⟨[⟨['今','日'], "noun", TokType.text, 1⟩]⟩ : Word).tokens = [t1, t2] ∧
      t1.type = TokType.text ∧ t2.type = TokType.text ∧
      ∃ nexts, assocFind t1.pos ([] : List (String × List String)) = some nexts ∧
        t2.pos ∈ nexts) :=
  segment_words_shape ['今','日','は'] (buildMorphTrie [(['今','日'], "noun"), (['は'], "particle")])
    (buildPosMap [(['今','日'], "noun"), (['は'], "particle")])
    [("noun", [("particle", 1/2)])] []
    ⟨[⟨['今','日'], "noun", TokType.text, 1⟩]⟩ (by decide)

/-- Helper: full characterization of the matches emitted by the trie
traversal loop, generalized over the node reached and consumed prefix. -/
theorem mem_findMorphsAux (start : Nat) (rest : List Char) :
    ∀ (node : TrieNode) (consumed m : List Char) (e : Nat),
      ((m, e) ∈ findMorphsAux start node consumed rest ↔
        ∃ suffix : List Char, suffix ≠ [] ∧ rest.take suffix.length = suffix ∧
          nodeHasMorph node suffix = true ∧ m = consumed ++ suffix ∧
          e = start + consumed.length + suffix.length) := by
  induction rest with
  | nil =>
    intro node consumed m e
    simp only [findMorphsAux, List.not_mem_nil, false_iff]
    rintro ⟨suffix, hne, htake, -, -, -⟩
    rw [List.take_nil] at htake
    exact hne htake.symm
  | cons c cs ih =>
    intro node consumed m e
    cases hf : assocFind c node.entries with
    | none =>
      simp only [findMorphsAux, hf, List.not_mem_nil, false_iff]
      rintro ⟨suffix, hne, htake, hmorph, -, -⟩
      cases suffix with
      | nil => exact hne rfl
      | cons d tail =>
        rw [List.length_cons, List.take_succ_cons] at htake
        injection htake with h1 h2
        subst h1
        simp only [nodeHasMorph, hf] at hmorph
        cases hmorph
    | some fc =>
      simp only [findMorphsAux, hf, List.mem_append]
      constructor
      · rintro (hhead | hrec)
        · have hflag : fc.1 = true := by
            by_contra hff
            simp only [Bool.not_eq_true] at hff
            rw [hff] at hhead
            simp at hhead
          rw [hflag] at hhead
          simp only [if_true, List.mem_singleton, Prod.mk.injEq] at hhead
          obtain ⟨rfl, rfl⟩ := hhead
          refine ⟨[c], by simp, by simp, ?_, rfl, ?_⟩
          · simp [nodeHasMorph, hf, hflag]
          · simp only [List.length_append, List.length_cons, List.length_nil]
            omega
        · obtain ⟨tail, hne, htake, hmorph, rfl, rfl⟩ :=
            (ih fc.2 (consumed ++ [c]) m e).mp hrec
          refine ⟨c :: tail, by simp, ?_, ?_, by simp, ?_⟩
          · rw [List.length_cons, List.take_succ_cons, htake]
          · simp only [nodeHasMorph, hf]
            rw [if_neg (by simpa using hne)]
            exact hmorph
          · simp only [List.length_append, List.length_cons, List.length_nil]
            omega
      · rintro ⟨suffix, hne, htake, hmorph, rfl, rfl⟩
        cases suffix with
        | nil => exact absurd rfl hne
        | cons d tail =>
          rw [List.length_cons, List.take_succ_cons] at htake
          injection htake with h1 h2
          subst h1
          simp only [nodeHasMorph, hf] at hmorph
          cases tail with
          | nil =>
            left
            simp at hmorph
            rw [if_pos hmorph]
            simp only [List.mem_singleton, Prod.mk.injEq, List.length_append,
              List.length_cons, List.length_nil, true_and]
            omega
          | cons d2 tail2 =>
            right
            refine (ih fc.2 (consumed ++ [c]) _ _).mpr ?_
            rw [if_neg (by simp)] at hmorph
            refine ⟨d2 :: tail2, by simp, ?_, hmorph, by simp, ?_⟩
            · rw [List.length_cons] at h2
              exact h2
            · simp only [List.length_append, List.length_cons, List.length_nil]
              omega

/-- Helper: membership characterization of the trie query at the root. -/
theorem findMorphs_mem_iff (trie : TrieNode) (text : List Char) (start : Nat)
    (m : List Char) (e : Nat) :
    (m, e) ∈ findMorphsFromTrie trie text start ↔
      (m ≠ [] ∧ (text.drop start).take m.length = m ∧ nodeHasMorph trie m = true ∧
        e = start + m.length) := by
  unfold findMorphsFromTrie
  rw [mem_findMorphsAux start (text.drop start) trie [] m e]
  constructor
  · rintro ⟨suffix, h1, h2, h3, rfl, rfl⟩
    simpa using ⟨h1, h2, h3⟩
  · rintro ⟨h1, h2, h3, rfl⟩
    exact ⟨m, h1, h2, h3, by simp, by simp⟩

/-- Helper: every trie match covers a non-empty in-bounds span `[start, e)`
of the text and its morph is exactly that slice. -/
theorem findMorphs_bounds (trie : TrieNode) (text : List Char) (start : Nat)
    (m : List Char) (e : Nat) (h : (m, e) ∈ findMorphsFromTrie trie text start) :
    start < e ∧ e ≤ text.length ∧ m = textSlice text start e ∧ m ≠ [] ∧
      start < text.length := by
  obtain ⟨h1, h2, h3, rfl⟩ := (findMorphs_mem_iff trie text start m e).mp h
  have hlen : m.length ≤ (text.drop start).length := by
    conv_lhs => rw [← h2]
    rw [List.length_take]
    omega
  rw [List.length_drop] at hlen
  have hm : 0 < m.length := List.length_pos.mpr h1
  have hstart : start < text.length := by
    by_contra hs
    push_neg at hs
    rw [List.drop_eq_nil_of_le hs] at h2
    rw [List.take_nil] at h2
    exact h1 h2.symm
  refine ⟨by omega, by omega, ?_, h1, hstart⟩
  unfold textSlice
  have : start + m.length - start = m.length := by omega
  rw [this, h2]

/-- Helper: the trie query emits at most one match per end position, in
strictly increasing order of end position. -/
theorem findMorphsAux_pairwise (start : Nat) (rest : List Char) :
    ∀ (node : TrieNode) (consumed : List Char),
      (findMorphsAux start node consumed rest).Pairwise (fun a b => a.2 < b.2) := by
  induction rest with
  | nil => intro node consumed; simp [findMorphsAux]
  | cons c cs ih =>
    intro node consumed
    cases hf : assocFind c node.entries with
    | none => simp [findMorphsAux, hf]
    | some fc =>
      simp only [findMorphsAux, hf]
      rw [List.pairwise_append]
      refine ⟨?_, ih fc.2 (consumed ++ [c]), ?_⟩
      · split <;> simp
      · intro x hx y hy
        obtain ⟨tail, hne, -, -, -, he⟩ :=
          (mem_findMorphsAux start cs fc.2 (consumed ++ [c]) y.1 y.2).mp hy
        have hx2 : x.2 = start + consumed.length + 1 := by
          split at hx
          · simp only [List.mem_singleton] at hx
            rw [hx]
            simp only [List.length_append, List.length_cons, List.length_nil]
            omega
          · simp at hx
        have htail : 0 < tail.length := List.length_pos.mpr hne
        simp only [List.length_append, List.length_cons, List.length_nil] at he
        omega

/-- C9: the trie query returns exactly the non-empty prefixes of the text
from `start` that are morphs of the trie, each with end position
`start + length`, one match per terminal node visited (strictly increasing
end positions). -/
theorem trie_query_spec (trie : TrieNode) (text : List Char) (start : Nat) :
    (∀ m e, ((m, e) ∈ findMorphsFromTrie trie text start ↔
        (m ≠ [] ∧ (text.drop start).take m.length = m ∧ nodeHasMorph trie m = true ∧
          e = start + m.length))) ∧
    (findMorphsFromTrie trie text start).Pairwise (fun a b => a.2 < b.2) :=
  ⟨fun m e => findMorphs_mem_iff trie text start m e,
   findMorphsAux_pairwise start (text.drop start) trie []⟩

/-- Witness: the trie-query characterization decides a concrete match. -/
theorem trie_query_spec_witness :
    (['あ'], 1) ∈ findMorphsFromTrie (buildMorphTrie [(['あ'], "n")]) ['あ','い'] 0 :=
  ((trie_query_spec (buildMorphTrie [(['あ'], "n")]) ['あ','い'] 0).1 ['あ'] 1).mpr
    (by decide)

/-- Helper: reading back a freshly set list element. -/
theorem getD_set_self {α : Type} (l : List α) (i : Nat) (x d : α) (h : i < l.length) :
    (l.set i x).getD i d = x := by
  rw [List.getD_eq_getD_get?, List.get?_eq_getElem?, List.getElem?_set_eq_of_lt x h]
  rfl

/-- Helper: setting one list element leaves the others unchanged. -/
theorem getD_set_ne {α : Type} (l : List α) (i j : Nat) (x d : α) (h : i ≠ j) :
    (l.set i x).getD j d = l.getD j d := by
  rw [List.getD_eq_getD_get?, List.getD_eq_getD_get?, List.get?_eq_getElem?,
    List.get?_eq_getElem?, List.getElem?_set_ne h]

/-- Helper: any element read from a set list is the old element or the new one. -/
theorem getD_set_cases {α : Type} (l : List α) (i j : Nat) (x d : α) :
    (l.set i x).getD j d = l.getD j d ∨ (l.set i x).getD j d = x := by
  by_cases hij : i = j
  · subst hij
    by_cases hl : i < l.length
    · right; exact getD_set_self l i x d hl
    · left; rw [List.set_eq_of_length_le (by omega)]
  · left; exact getD_set_ne l i j x d hij

/-- Helper: the fresh table has the start state at row 0 and empty rows after. -/
theorem initTable_getD (text : List Char) (i : Nat) :
    (initTable text).getD i [] = if i = 0 then [("", VState.root 1)] else [] := by
  unfold initTable
  by_cases h : i = 0
  · subst h
    rw [if_pos rfl]
    exact getD_set_self _ 0 _ _ (by simp)
  · rw [if_neg h, getD_set_ne _ 0 i _ _ (fun hh => h hh.symm)]
    by_cases hi : i < text.length + 1
    · rw [List.getD_eq_getElem _ _ (by simpa using hi)]
      simp
    · rw [List.getD_eq_default]
      simpa using (by omega : text.length + 1 ≤ i)

/-- Helper: a JS property write only adds the written pair as a possible member. -/
theorem mem_setAssoc {α β : Type} [DecidableEq α] (k : α) (v : β) (row : List (α × β)) :
    ∀ q ∈ setAssoc k v row, q ∈ row ∨ q = (k, v) := by
  induction row with
  | nil => simp [setAssoc]
  | cons p rest ih =>
    intro q hq
    unfold setAssoc at hq
    by_cases hp : p.1 = k
    · rw [if_pos hp] at hq
      rcases List.mem_cons.mp hq with h | h
      · right; exact h
      · left; exact List.mem_cons_of_mem p h
    · rw [if_neg hp] at hq
      rcases List.mem_cons.mp hq with h | h
      · left; exact h ▸ List.mem_cons_self p rest
      · rcases ih q h with h2 | h2
        · left; exact List.mem_cons_of_mem p h2
        · right; exact h2

/-- Helper: one unfolding step of the whitespace scan. -/
theorem wsEnd_step (text : List Char) (i : Nat) :
    wsEnd text i =
      if h : i < text.length then
        (if isWs (text.get ⟨i, h⟩) then wsEnd text (i + 1) else i)
      else i := by
  unfold wsEnd
  by_cases h : i < text.length
  · rw [dif_pos h]
    rw [List.drop_eq_getElem_cons h]
    rfl
  · rw [dif_neg h]
    rw [List.drop_eq_nil_of_le (by omega)]
    rfl

/-- Helper: the whitespace scan moves forward, stays in bounds, covers only
whitespace, and stops at the end of text or at a non-whitespace character. -/
theorem wsEnd_spec (text : List Char) (i : Nat) :
    i ≤ wsEnd text i ∧
    (i ≤ text.length → wsEnd text i ≤ text.length) ∧
    (∀ k, i ≤ k → k < wsEnd text i → isWs (text.getD k ' ') = true) ∧
    (i ≤ text.length →
      (wsEnd text i = text.length ∨ isWs (text.getD (wsEnd text i) ' ') = false)) := by
  have H : ∀ n i, text.length - i ≤ n →
      (i ≤ wsEnd text i ∧
       (i ≤ text.length → wsEnd text i ≤ text.length) ∧
       (∀ k, i ≤ k → k < wsEnd text i → isWs (text.getD k ' ') = true) ∧
       (i ≤ text.length →
         (wsEnd text i = text.length ∨ isWs (text.getD (wsEnd text i) ' ') = false))) := by
    intro n
    induction n with
    | zero =>
      intro i hi
      have hlen : ¬ i < text.length := by omega
      rw [wsEnd_step, dif_neg hlen]
      refine ⟨le_refl i, fun h => h, fun k hk1 hk2 => by omega, fun h => ?_⟩
      left; omega
    | succ n ihn =>
      intro i hi
      by_cases hlen : i < text.length
      · by_cases hw : isWs (text.get ⟨i, hlen⟩) = true
        · have heq : wsEnd text i = wsEnd text (i + 1) := by
            rw [wsEnd_step, dif_pos hlen, if_pos hw]
          obtain ⟨ih1, ih2, ih3, ih4⟩ := ihn (i + 1) (by omega)
          rw [heq]
          refine ⟨by omega, fun _ => ih2 (by omega), fun k hk1 hk2 => ?_,
            fun _ => ih4 (by omega)⟩
          by_cases hki : k = i
          · subst hki
            rw [List.getD_eq_getElem _ _ hlen]
            simpa [List.get_eq_getElem] using hw
          · exact ih3 k (by omega) hk2
        · have heq : wsEnd text i = i := by
            rw [wsEnd_step, dif_pos hlen, if_neg hw]
          rw [heq]
          refine ⟨le_refl i, fun h => h, fun k hk1 hk2 => by omega, fun _ => ?_⟩
          right
          rw [List.getD_eq_getElem _ _ hlen]
          simpa [List.get_eq_getElem] using hw
      · rw [wsEnd_step, dif_neg hlen]
        refine ⟨le_refl i, fun h => h, fun k hk1 hk2 => by omega, fun h => ?_⟩
        left; omega
  exact H (text.length - i) i (le_refl _)

/-- Helper: on a whitespace character the scan strictly advances. -/
theorem wsEnd_gt (text : List Char) (i : Nat) (h : i < text.length)
    (hw : isWs (text.get ⟨i, h⟩) = true) : i < wsEnd text i := by
  rw [wsEnd_step, dif_pos h, if_pos hw]
  have := (wsEnd_spec text (i + 1)).1
  omega

/-- Helper: a successful indexed read is in bounds and agrees with `getD`. -/
theorem get?_some_facts (l : List Char) (i : Nat) (c : Char) (h : l.get? i = some c) :
    i < l.length ∧ l.getD i ' ' = c := by
  rw [List.get?_eq_getElem?] at h
  refine ⟨(List.getElem?_eq_some.mp h).1, ?_⟩
  rw [List.getD_eq_getD_get?, List.get?_eq_getElem?, h]
  rfl

/-- Helper: token-span concatenation distributes over append. -/
theorem concatTokens_append (a b : List Token) :
    concatTokens (a ++ b) = concatTokens a ++ concatTokens b := by
  unfold concatTokens
  rw [List.map_append, List.flatten_append]

/-- Helper: a prefix extended by the adjacent slice is the longer prefix. -/
theorem take_append_textSlice (text : List Char) (i j : Nat) (hij : i ≤ j)
    (_hj : j ≤ text.length) :
    text.take i ++ textSlice text i j = text.take j := by
  unfold textSlice
  rw [← List.take_add]
  congr 1
  omega

/-- Helper: a chain reachable by the rules never passes the end of text. -/
theorem goodChain_le (trie : TrieNode) (text : List Char) (i : Nat) (rts : List Token)
    (h : GoodChain trie text i rts) : i ≤ text.length := by
  induction h with
  | nil => omega
  | @ws i c rts hc hw h ih =>
    exact (wsEnd_spec text i).2.1 (le_of_lt (get?_some_facts text i c hc).1)
  | @txt i e m tag p rts hm h ih =>
    exact (findMorphs_bounds trie text i m e hm).2.1
  | @skip i c rts hc hw h ih =>
    exact (get?_some_facts text i c hc).1

/-- Helper: the tokens of a reachable chain, in text order, concatenate to
the processed prefix of the text. -/
theorem goodChain_concat (trie : TrieNode) (text : List Char) (i : Nat) (rts : List Token)
    (h : GoodChain trie text i rts) : concatTokens rts.reverse = text.take i := by
  induction h with
  | nil => simp [concatTokens]
  | @ws i c rts hc hw h ih =>
    have hlen := (get?_some_facts text i c hc).1
    rw [List.reverse_cons, concatTokens_append, ih]
    show text.take i ++ (textSlice text i (wsEnd text i) ++ []) = _
    rw [List.append_nil]
    exact take_append_textSlice text i (wsEnd text i) (wsEnd_spec text i).1
      ((wsEnd_spec text i).2.1 (by omega))
  | @txt i e m tag p rts hm h ih =>
    obtain ⟨h1, h2, h3, -, -⟩ := findMorphs_bounds trie text i m e hm
    rw [List.reverse_cons, concatTokens_append, ih]
    show text.take i ++ (m ++ []) = _
    rw [List.append_nil, h3]
    exact take_append_textSlice text i e (by omega) h2
  | @skip i c rts hc hw h ih =>
    rw [List.reverse_cons, concatTokens_append, ih]
    show text.take i ++ ([c] ++ []) = _
    have hc2 : text[i]? = some c := by rw [← List.get?_eq_getElem?]; exact hc
    rw [List.append_nil, List.take_succ, hc2]
    rfl

/-- Helper: reading a set list yields the old element, or the new one at the set index. -/
theorem getD_set_eq_cases {α : Type} (l : List α) (i j : Nat) (x d : α) :
    (l.set i x).getD j d = l.getD j d ∨ (j = i ∧ (l.set i x).getD j d = x) := by
  by_cases hij : i = j
  · subst hij
    by_cases hl : i < l.length
    · right; exact ⟨rfl, getD_set_self l i x d hl⟩
    · left; rw [List.set_eq_of_length_le (by omega)]
  · left; exact getD_set_ne l i j x d hij

/-- Helper: the backtrace of a non-initial state starts with its token. -/
theorem collectTokens_cons (s : ℚ) (bp : VState) (t : Token) :
    collectTokens (VState.cons s bp t) = t :: collectTokens bp := rfl

/-- Helper: `processState` with its let-bindings unfolded. -/
theorem processState_eq (trie : TrieNode) (posMap : List (List Char × List String))
    (transitionMap : List (String × List (String × ℚ))) (text : List Char)
    (tbl : List ViterbiRow) (idx : Nat) (prevPos : String) (prevState : VState) :
    processState trie posMap transitionMap text tbl idx prevPos prevState =
      match text.get? idx with
      | none => tbl
      | some c =>
        if isWs c then
          updateViterbiTable tbl (wsEnd text idx) prevPos prevState
            ⟨textSlice text idx (wsEnd text idx), "", TokType.whitespace, 1⟩ 1
        else if (findMorphsFromTrie trie text idx).isEmpty then
          updateViterbiTable
            (processMatches posMap transitionMap prevPos prevState
              (findMorphsFromTrie trie text idx) tbl)
            (idx + 1) prevPos prevState ⟨[c], "", TokType.skipped, smallProb⟩ smallProb
        else
          processMatches posMap transitionMap prevPos prevState
            (findMorphsFromTrie trie text idx) tbl := rfl

/-- Helper: an update either leaves the table unchanged or rewrites one row,
and every member of the new row is an old member or the stored candidate. -/
theorem update_cases (tbl : List ViterbiRow) (nextIdx : Nat) (nextPos : String)
    (prevState : VState) (token : Token) (addScore : ℚ) :
    updateViterbiTable tbl nextIdx nextPos prevState token addScore = tbl ∨
    ∃ row2, updateViterbiTable tbl nextIdx nextPos prevState token addScore =
        tbl.set nextIdx row2 ∧
      ∀ q ∈ row2, q ∈ tbl.getD nextIdx [] ∨
        q = (nextPos, VState.cons (prevState.score * addScore) prevState token) := by
  simp only [updateViterbiTable]
  split
  · right
    refine ⟨_, rfl, fun q hq => ?_⟩
    rcases List.mem_append.mp hq with h | h
    · exact Or.inl h
    · right; simpa using h
  · split
    · right
      exact ⟨_, rfl, fun q hq => mem_setAssoc nextPos _ _ q hq⟩
    · left; rfl

/-- Helper: storing a candidate whose chain is reachable preserves `TableGood`. -/
theorem tableGood_update (trie : TrieNode) (text : List Char) (tbl : List ViterbiRow)
    (hG : TableGood trie text tbl) (nextIdx : Nat) (nextPos : String) (prevState : VState)
    (token : Token) (addScore : ℚ)
    (hnew : GoodChain trie text nextIdx (token :: collectTokens prevState)) :
    TableGood trie text (updateViterbiTable tbl nextIdx nextPos prevState token addScore) := by
  rcases update_cases tbl nextIdx nextPos prevState token addScore with heq | ⟨row2, heq, hrow⟩
  · rw [heq]; exact hG
  · rw [heq]
    intro j entry hentry
    rcases getD_set_eq_cases tbl nextIdx j row2 [] with hc | ⟨rfl, hc⟩
    · rw [hc] at hentry
      exact hG j entry hentry
    · rw [hc] at hentry
      rcases hrow entry hentry with h | h
      · exact hG _ entry h
      · rw [h]
        rw [collectTokens_cons]
        exact hnew

/-- Helper: rule 2 preserves `TableGood`. -/
theorem processMatches_tableGood (trie : TrieNode) (posMap : List (List Char × List String))
    (transitionMap : List (String × List (String × ℚ))) (text : List Char)
    (idx : Nat) (prevPos : String) (prevState : VState) (tbl : List ViterbiRow)
    (hG : TableGood trie text tbl)
    (hprev : GoodChain trie text idx (collectTokens prevState)) :
    TableGood trie text (processMatches posMap transitionMap prevPos prevState
      (findMorphsFromTrie trie text idx) tbl) := by
  unfold processMatches
  apply List.foldlRecOn _ _ _ hG
  intro acc hacc fm hfm
  apply List.foldlRecOn _ _ _ hacc
  intro acc2 hacc2 posTag hposTag
  exact tableGood_update trie text acc2 hacc2 _ _ _ _ _ (GoodChain.txt hfm hprev)

/-- Helper: one state of the Viterbi loop preserves `TableGood`. -/
theorem processState_tableGood (trie : TrieNode) (posMap : List (List Char × List String))
    (transitionMap : List (String × List (String × ℚ))) (text : List Char)
    (tbl : List ViterbiRow) (idx : Nat) (prevPos : String) (prevState : VState)
    (hG : TableGood trie text tbl)
    (hprev : GoodChain trie text idx (collectTokens prevState)) :
    TableGood trie text (processState trie posMap transitionMap text tbl idx prevPos prevState) := by
  rw [processState_eq]
  split
  · exact hG
  · rename_i c hc
    split
    · rename_i hw
      exact tableGood_update trie text tbl hG _ _ _ _ _ (GoodChain.ws hc hw hprev)
    · rename_i hw
      have hfold := processMatches_tableGood trie posMap transitionMap text idx prevPos
        prevState tbl hG hprev
      split
      · exact tableGood_update trie text _ hfold _ _ _ _ _
          (GoodChain.skip hc (by simpa using hw) hprev)
      · exact hfold

/-- Helper: one row of the Viterbi loop preserves `TableGood`. -/
theorem processRow_tableGood (trie : TrieNode) (posMap : List (List Char × List String))
    (transitionMap : List (String × List (String × ℚ))) (text : List Char)
    (tbl : List ViterbiRow) (idx : Nat)
    (hG : TableGood trie text tbl) :
    TableGood trie text (processRow trie posMap transitionMap text tbl idx) := by
  unfold processRow
  apply List.foldlRecOn _ _ _ hG
  intro acc hacc entry hentry
  exact processState_tableGood trie posMap transitionMap text acc idx entry.1 entry.2 hacc
    (hG idx entry hentry)

/-- Helper: after the forward pass every stored state is reachable by the rules. -/
theorem runForward_tableGood (trie : TrieNode) (posMap : List (List Char × List String))
    (transitionMap : List (String × List (String × ℚ))) (text : List Char) :
    TableGood trie text (runForward trie posMap transitionMap text) := by
  unfold runForward
  apply List.foldlRecOn
  · intro i entry hentry
    rw [initTable_getD] at hentry
    by_cases h : i = 0
    · subst h
      rw [if_pos rfl] at hentry
      rcases List.mem_singleton.mp hentry with rfl
      exact GoodChain.nil
    · rw [if_neg h] at hentry
      cases hentry
  · intro tbl htbl idx hidx
    exact processRow_tableGood trie posMap transitionMap text tbl idx htbl

/-- Helper: the terminal-selection fold only returns its accumulator or a row member. -/
theorem bestState_aux_mem (row : ViterbiRow) :
    ∀ (acc : Option VState) (st : VState),
      row.foldl (fun best entry =>
        match best with
        | none => some entry.2
        | some b => if b.score < entry.2.score then some entry.2 else best) acc = some st →
      acc = some st ∨ ∃ p, (p, st) ∈ row := by
  induction row with
  | nil => intro acc st h; exact Or.inl h
  | cons e rest ih =>
    intro acc st h
    rw [List.foldl_cons] at h
    rcases ih _ st h with h2 | ⟨p, hp⟩
    · cases acc with
      | none =>
        right
        have h2 : some e.2 = some st := h2
        obtain rfl := Option.some.inj h2
        exact ⟨e.1, List.mem_cons_self e rest⟩
      | some b =>
        have h2 : (if b.score < e.2.score then some e.2 else some b) = some st := h2
        by_cases hlt : b.score < e.2.score
        · rw [if_pos hlt] at h2
          right
          obtain rfl := Option.some.inj h2
          exact ⟨e.1, List.mem_cons_self e rest⟩
        · rw [if_neg hlt] at h2
          exact Or.inl h2
    · right; exact ⟨p, List.mem_cons_of_mem e hp⟩

/-- Helper: the terminal-selection fold never drops a populated accumulator. -/
theorem bestState_foldl_some (row : ViterbiRow) :
    ∀ b : VState, ∃ st,
      row.foldl (fun best entry =>
        match best with
        | none => some entry.2
        | some b => if b.score < entry.2.score then some entry.2 else best) (some b) =
        some st := by
  induction row with
  | nil => intro b; exact ⟨b, rfl⟩
  | cons e rest ih =>
    intro b
    rw [List.foldl_cons]
    show ∃ st, rest.foldl _ (if b.score < e.2.score then some e.2 else some b) = some st
    by_cases hlt : b.score < e.2.score
    · rw [if_pos hlt]; exact ih e.2
    · rw [if_neg hlt]; exact ih b

/-- Helper: a non-empty terminal row yields a best state. -/
theorem bestState_ne_empty (row : ViterbiRow) (h : row ≠ []) :
    ∃ st, bestState row = some st := by
  cases row with
  | nil => exact absurd rfl h
  | cons e rest =>
    unfold bestState
    rw [List.foldl_cons]
    show ∃ st, rest.foldl _ (some e.2) = some st
    exact bestState_foldl_some rest e.2

/-- Helper: the best state is a member of its row. -/
theorem bestState_mem (row : ViterbiRow) (st : VState) (h : bestState row = some st) :
    ∃ p, (p, st) ∈ row := by
  rcases bestState_aux_mem row none st h with h2 | h2
  · cases h2
  · exact h2

/-- C3 (amended): whenever the forward pass populates a terminal state (the
DP row at N is non-empty), concatenating the text spans of all tokens of
all words of the output, in order, reproduces the input exactly. -/
theorem coverage_of_terminal (text : List Char) (trie : TrieNode)
    (posMap : List (List Char × List String))
    (transitionMap : List (String × List (String × ℚ)))
    (recombinationMap : List (String × List String))
    (h : (runForward trie posMap transitionMap text).getD text.length [] ≠ []) :
    concatTokens (wordsTokens
      (viterbiSegment text trie posMap transitionMap recombinationMap)) = text := by
  obtain ⟨st, hbest⟩ := bestState_ne_empty _ h
  obtain ⟨p, hmem⟩ := bestState_mem _ st hbest
  have hchain := runForward_tableGood trie posMap transitionMap text text.length (p, st) hmem
  have hconcat := goodChain_concat trie text text.length (collectTokens st) hchain
  simp only [viterbiSegment, hbest]
  rw [wordsTokens_recombine, hconcat, List.take_length]

unseal Rat.mul Rat.inv in
/-- Witness: coverage at the concrete C4 model. -/
theorem coverage_of_terminal_witness :
    concatTokens (wordsTokens
      (viterbiSegment ['今','日','は'] (buildMorphTrie [(['今','日'], "noun"), (['は'], "particle")])
        (buildPosMap [(['今','日'], "noun"), (['は'], "particle")])
        [("noun", [("particle", 1/2)])] [])) = ['今','日','は'] :=
  coverage_of_terminal ['今','日','は'] (buildMorphTrie [(['今','日'], "noun"), (['は'], "particle")])
    (buildPosMap [(['今','日'], "noun"), (['は'], "particle")])
    [("noun", [("particle", 1/2)])] [] (by decide)

/-- Helper: a failed property read means the key is absent. -/
theorem assocFind_eq_none_iff {α β : Type} [DecidableEq α] (k : α) (l : List (α × β)) :
    assocFind k l = none ↔ k ∉ l.map Prod.fst := by
  induction l with
  | nil => simp [assocFind]
  | cons p rest ih =>
    simp only [assocFind]
    by_cases hp : p.1 = k
    · simp [hp]
    · simp only [if_neg hp, List.map_cons, List.mem_cons, ih]
      constructor
      · rintro h (h2 | h2)
        · exact hp h2.symm
        · exact h h2
      · intro h h2
        exact h (Or.inr h2)

/-- Helper: reading a key just appended to a list that lacked it. -/
theorem assocFind_append_of_none {α β : Type} [DecidableEq α] (k : α) (v : β)
    (l : List (α × β)) (h : assocFind k l = none) :
    assocFind k (l ++ [(k, v)]) = some v := by
  induction l with
  | nil => simp [assocFind]
  | cons p rest ih =>
    simp only [assocFind, List.cons_append] at h ⊢
    by_cases hp : p.1 = k
    · rw [if_pos hp] at h; cases h
    · rw [if_neg hp] at h ⊢
      exact ih h

/-- Helper: reading back a written key. -/
theorem assocFind_setAssoc_self {α β : Type} [DecidableEq α] (k : α) (v : β)
    (l : List (α × β)) : assocFind k (setAssoc k v l) = some v := by
  induction l with
  | nil => simp [setAssoc, assocFind]
  | cons p rest ih =>
    simp only [setAssoc]
    by_cases hp : p.1 = k
    · rw [if_pos hp]
      simp [assocFind]
    · rw [if_neg hp]
      simp only [assocFind]
      rw [if_neg hp]
      exact ih

/-- Helper: overwriting an existing key keeps the key sequence. -/
theorem setAssoc_map_fst_of_some {α β : Type} [DecidableEq α] (k : α) (v : β)
    (l : List (α × β)) (st : β) (h : assocFind k l = some st) :
    (setAssoc k v l).map Prod.fst = l.map Prod.fst := by
  induction l with
  | nil => cases h
  | cons p rest ih =>
    simp only [setAssoc]
    simp only [assocFind] at h
    by_cases hp : p.1 = k
    · rw [if_pos hp]
      simp [hp]
    · rw [if_neg hp] at h ⊢
      simp [ih h]

/-- Helper: a property write never produces an empty object. -/
theorem setAssoc_ne_nil {α β : Type} [DecidableEq α] (k : α) (v : β) (l : List (α × β)) :
    setAssoc k v l ≠ [] := by
  cases l with
  | nil => simp [setAssoc]
  | cons p rest =>
    simp only [setAssoc]
    split <;> simp

/-- Helper: a successful read implies a non-empty object. -/
theorem assocFind_some_ne_nil {α β : Type} [DecidableEq α] (k : α) (l : List (α × β))
    (st : β) (h : assocFind k l = some st) : l ≠ [] := by
  cases l with
  | nil => cases h
  | cons p rest => simp

/-- Helper: an update keeps every row free of duplicate PoS keys. -/
theorem rowsNodup_update (tbl : List ViterbiRow) (nextIdx : Nat) (nextPos : String)
    (prevState : VState) (token : Token) (addScore : ℚ)
    (hN : RowsNodup tbl) :
    RowsNodup (updateViterbiTable tbl nextIdx nextPos prevState token addScore) := by
  simp only [updateViterbiTable]
  split
  · rename_i hf
    intro j
    rcases getD_set_eq_cases tbl nextIdx j
        (tbl.getD nextIdx [] ++ [(nextPos, _)]) [] with hc | ⟨hji, hc⟩
    · rw [hc]; exact hN j
    · subst hji
      rw [hc]
      rw [List.map_append]
      apply List.Nodup.append (hN _) (by simp)
      intro a ha hb
      simp only [List.map_cons, List.map_nil, List.mem_singleton] at hb
      exact ((assocFind_eq_none_iff nextPos _).mp hf) (hb ▸ ha)
  · split
    · rename_i st hf hlt
      intro j
      rcases getD_set_eq_cases tbl nextIdx j
          (setAssoc nextPos (VState.cons (prevState.score * addScore) prevState token)
            (tbl.getD nextIdx [])) [] with hc | ⟨hji, hc⟩
      · rw [hc]; exact hN j
      · subst hji
        rw [hc, setAssoc_map_fst_of_some nextPos _ _ st hf]
        exact hN _
    · exact hN

/-- Helper: rule 2 keeps rows free of duplicate PoS keys. -/
theorem rowsNodup_processMatches (posMap : List (List Char × List String))
    (transitionMap : List (String × List (String × ℚ))) (prevPos : String)
    (prevState : VState) (found : List (List Char × Nat)) (tbl : List ViterbiRow)
    (hN : RowsNodup tbl) :
    RowsNodup (processMatches posMap transitionMap prevPos prevState found tbl) := by
  unfold processMatches
  apply List.foldlRecOn _ _ _ hN
  intro acc hacc fm hfm
  apply List.foldlRecOn _ _ _ hacc
  intro acc2 hacc2 posTag hposTag
  exact rowsNodup_update acc2 _ _ _ _ _ hacc2

/-- Helper: one Viterbi state keeps rows free of duplicate PoS keys. -/
theorem rowsNodup_processState (trie : TrieNode) (posMap : List (List Char × List String))
    (transitionMap : List (String × List (String × ℚ))) (text : List Char)
    (tbl : List ViterbiRow) (idx : Nat) (prevPos : String) (prevState : VState)
    (hN : RowsNodup tbl) :
    RowsNodup (processState trie posMap transitionMap text tbl idx prevPos prevState) := by
  rw [processState_eq]
  split
  · exact hN
  · split
    · exact rowsNodup_update tbl _ _ _ _ _ hN
    · split
      · exact rowsNodup_update _ _ _ _ _ _
          (rowsNodup_processMatches posMap transitionMap prevPos prevState _ tbl hN)
      · exact rowsNodup_processMatches posMap transitionMap prevPos prevState _ tbl hN

/-- Helper: the whole forward pass keeps at most one entry per (position, PoS). -/
theorem rowsNodup_runForward (trie : TrieNode) (posMap : List (List Char × List String))
    (transitionMap : List (String × List (String × ℚ))) (text : List Char) :
    RowsNodup (runForward trie posMap transitionMap text) := by
  unfold runForward
  apply List.foldlRecOn
  · intro j
    rw [initTable_getD]
    split <;> simp
  · intro tbl htbl idx hidx
    unfold processRow
    apply List.foldlRecOn _ _ _ htbl
    intro acc hacc entry hentry
    exact rowsNodup_processState trie posMap transitionMap text acc idx entry.1 entry.2 hacc

/-- C7: a DP-table proposal is stored exactly when the cell is empty or the
new cumulative score is strictly greater than the stored one (equal scores
keep the first-seen entry), and throughout the forward pass every row holds
at most one entry per distinct PoS tag. -/
theorem update_policy_spec (tbl : List ViterbiRow) (nextIdx : Nat) (nextPos : String)
    (prevState : VState) (token : Token) (addScore : ℚ) (hlen : nextIdx < tbl.length) :
    (assocFind nextPos (tbl.getD nextIdx []) = none →
      assocFind nextPos
          ((updateViterbiTable tbl nextIdx nextPos prevState token addScore).getD nextIdx []) =
        some (VState.cons (prevState.score * addScore) prevState token)) ∧
    (∀ st, assocFind nextPos (tbl.getD nextIdx []) = some st →
      st.score < prevState.score * addScore →
      assocFind nextPos
          ((updateViterbiTable tbl nextIdx nextPos prevState token addScore).getD nextIdx []) =
        some (VState.cons (prevState.score * addScore) prevState token)) ∧
    (∀ st, assocFind nextPos (tbl.getD nextIdx []) = some st →
      ¬ st.score < prevState.score * addScore →
      updateViterbiTable tbl nextIdx nextPos prevState token addScore = tbl) ∧
    (∀ (trie : TrieNode) (posMap : List (List Char × List String))
      (transitionMap : List (String × List (String × ℚ))) (text : List Char),
      RowsNodup (runForward trie posMap transitionMap text)) := by
  refine ⟨fun hf => ?_, fun st hf hlt => ?_, fun st hf hlt => ?_, rowsNodup_runForward⟩
  · simp only [updateViterbiTable, hf]
    rw [getD_set_self _ _ _ _ hlen]
    exact assocFind_append_of_none nextPos _ _ hf
  · simp only [updateViterbiTable, hf, if_pos hlt]
    rw [getD_set_self _ _ _ _ hlen]
    exact assocFind_setAssoc_self nextPos _ _
  · simp only [updateViterbiTable, hf, if_neg hlt]

/-- Witness: the insert branch of the update policy and the row-uniqueness
invariant at concrete inputs. -/
theorem update_policy_spec_witness :
    (assocFind "b"
        ((updateViterbiTable [[("a", VState.root 1)]] 0 "b" (VState.root 1)
          ⟨['x'], "b", TokType.text, 1⟩ 1).getD 0 []) =
      some (VState.cons ((VState.root 1).score * 1) (VState.root 1)
        ⟨['x'], "b", TokType.text, 1⟩)) ∧
    RowsNodup (runForward (buildMorphTrie [(['X'], "noun")]) [] [] ['X']) :=
  ⟨(update_policy_spec [[("a", VState.root 1)]] 0 "b" (VState.root 1)
      ⟨['x'], "b", TokType.text, 1⟩ 1 (by decide)).1 (by decide),
   (update_policy_spec [[("a", VState.root 1)]] 0 "b" (VState.root 1)
      ⟨['x'], "b", TokType.text, 1⟩ 1 (by decide)).2.2.2
     (buildMorphTrie [(['X'], "noun")]) [] [] ['X']⟩

/-- Helper: an update never changes the number of rows. -/
theorem update_length (tbl : List ViterbiRow) (nextIdx : Nat) (nextPos : String)
    (prevState : VState) (token : Token) (addScore : ℚ) :
    (updateViterbiTable tbl nextIdx nextPos prevState token addScore).length = tbl.length := by
  rcases update_cases tbl nextIdx nextPos prevState token addScore with heq | ⟨row2, heq, -⟩
  · rw [heq]
  · rw [heq, List.length_set]

/-- Helper: rule 2 never changes the number of rows. -/
theorem processMatches_length (posMap : List (List Char × List String))
    (transitionMap : List (String × List (String × ℚ))) (prevPos : String)
    (prevState : VState) (found : List (List Char × Nat)) (tbl : List ViterbiRow) :
    (processMatches posMap transitionMap prevPos prevState found tbl).length = tbl.length := by
  unfold processMatches
  refine @List.foldlRecOn _ _ (fun x => x.length = tbl.length) found _ tbl rfl ?_
  intro acc hacc fm hfm
  refine @List.foldlRecOn _ _ (fun x => x.length = tbl.length) _ _ acc hacc ?_
  intro acc2 hacc2 posTag hposTag
  rw [update_length, hacc2]

/-- Helper: one Viterbi state never changes the number of rows. -/
theorem processState_length (trie : TrieNode) (posMap : List (List Char × List String))
    (transitionMap : List (String × List (String × ℚ))) (text : List Char)
    (tbl : List ViterbiRow) (idx : Nat) (prevPos : String) (prevState : VState) :
    (processState trie posMap transitionMap text tbl idx prevPos prevState).length =
      tbl.length := by
  rw [processState_eq]
  split
  · rfl
  · split
    · rw [update_length]
    · split
      · rw [update_length, processMatches_length]
      · rw [processMatches_length]

/-- Helper: one Viterbi row never changes the number of rows. -/
theorem processRow_length (trie : TrieNode) (posMap : List (List Char × List String))
    (transitionMap : List (String × List (String × ℚ))) (text : List Char)
    (tbl : List ViterbiRow) (idx : Nat) :
    (processRow trie posMap transitionMap text tbl idx).length = tbl.length := by
  unfold processRow
  refine @List.foldlRecOn _ _ (fun x => x.length = tbl.length) _ _ tbl rfl ?_
  intro acc hacc entry hentry
  rw [processState_length, hacc]

/-- Helper: an update never empties a populated row. -/
theorem update_row_nonempty_pres (tbl : List ViterbiRow) (nextIdx : Nat) (nextPos : String)
    (prevState : VState) (token : Token) (addScore : ℚ) (j : Nat)
    (h : tbl.getD j [] ≠ []) :
    (updateViterbiTable tbl nextIdx nextPos prevState token addScore).getD j [] ≠ [] := by
  simp only [updateViterbiTable]
  split
  · rcases getD_set_eq_cases tbl nextIdx j (tbl.getD nextIdx [] ++ [(nextPos, _)]) []
      with hc | ⟨hji, hc⟩
    · rw [hc]; exact h
    · rw [hc]; simp
  · split
    · rcases getD_set_eq_cases tbl nextIdx j
          (setAssoc nextPos (VState.cons (prevState.score * addScore) prevState token)
            (tbl.getD nextIdx [])) [] with hc | ⟨hji, hc⟩
      · rw [hc]; exact h
      · rw [hc]; exact setAssoc_ne_nil _ _ _
    · exact h

/-- Helper: after an in-bounds update the target row is populated. -/
theorem update_target_nonempty (tbl : List ViterbiRow) (nextIdx : Nat) (nextPos : String)
    (prevState : VState) (token : Token) (addScore : ℚ) (hlen : nextIdx < tbl.length) :
    (updateViterbiTable tbl nextIdx nextPos prevState token addScore).getD nextIdx [] ≠ [] := by
  simp only [updateViterbiTable]
  split
  · rw [getD_set_self _ _ _ _ hlen]
    simp
  · rename_i st hf
    split
    · rw [getD_set_self _ _ _ _ hlen]
      exact setAssoc_ne_nil _ _ _
    · exact assocFind_some_ne_nil nextPos _ st hf

/-- Helper: rule 2 never empties a populated row. -/
theorem processMatches_nonempty_pres (posMap : List (List Char × List String))
    (transitionMap : List (String × List (String × ℚ))) (prevPos : String)
    (prevState : VState) (found : List (List Char × Nat)) (tbl : List ViterbiRow)
    (j : Nat) (h : tbl.getD j [] ≠ []) :
    (processMatches posMap transitionMap prevPos prevState found tbl).getD j [] ≠ [] := by
  unfold processMatches
  refine @List.foldlRecOn _ _ (fun x => x.getD j [] ≠ []) found _ tbl h ?_
  intro acc hacc fm hfm
  refine @List.foldlRecOn _ _ (fun x => x.getD j [] ≠ []) _ _ acc hacc ?_
  intro acc2 hacc2 posTag hposTag
  exact update_row_nonempty_pres acc2 _ _ _ _ _ j hacc2

/-- Helper: one Viterbi state never empties a populated row. -/
theorem processState_nonempty_pres (trie : TrieNode) (posMap : List (List Char × List String))
    (transitionMap : List (String × List (String × ℚ))) (text : List Char)
    (tbl : List ViterbiRow) (idx : Nat) (prevPos : String) (prevState : VState)
    (j : Nat) (h : tbl.getD j [] ≠ []) :
    (processState trie posMap transitionMap text tbl idx prevPos prevState).getD j [] ≠ [] := by
  rw [processState_eq]
  split
  · exact h
  · split
    · exact update_row_nonempty_pres tbl _ _ _ _ _ j h
    · split
      · exact update_row_nonempty_pres _ _ _ _ _ _ j
          (processMatches_nonempty_pres posMap transitionMap prevPos prevState _ tbl j h)
      · exact processMatches_nonempty_pres posMap transitionMap prevPos prevState _ tbl j h

/-- Helper: one Viterbi row never empties a populated row. -/
theorem processRow_nonempty_pres (trie : TrieNode) (posMap : List (List Char × List String))
    (transitionMap : List (String × List (String × ℚ))) (text : List Char)
    (tbl : List ViterbiRow) (idx : Nat) (j : Nat) (h : tbl.getD j [] ≠ []) :
    (processRow trie posMap transitionMap text tbl idx).getD j [] ≠ [] := by
  unfold processRow
  refine @List.foldlRecOn _ _ (fun x => x.getD j [] ≠ []) _ _ tbl h ?_
  intro acc hacc entry hentry
  exact processState_nonempty_pres trie posMap transitionMap text acc idx entry.1 entry.2 j hacc

/-- Helper: a successful indexed read agrees with `get`. -/
theorem get?_some_get (l : List Char) (i : Nat) (c : Char) (h : l.get? i = some c)
    (hlt : i < l.length) : l.get ⟨i, hlt⟩ = c := by
  have h2 := (get?_some_facts l i c h).2
  rw [List.getD_eq_getElem _ _ hlt] at h2
  rw [List.get_eq_getElem]
  exact h2

/-- Helper: rule 2 on a non-empty match list whose first morph has a PoS
tag populates the end row of that morph. -/
theorem processMatches_target (posMap : List (List Char × List String))
    (transitionMap : List (String × List (String × ℚ))) (prevPos : String)
    (prevState : VState) (fm : List Char × Nat) (rest : List (List Char × Nat))
    (tbl : List ViterbiRow)
    (hpos : (assocFind fm.1 posMap).getD [] ≠ [])
    (hlen : fm.2 < tbl.length) :
    (processMatches posMap transitionMap prevPos prevState (fm :: rest) tbl).getD fm.2 []
      ≠ [] := by
  unfold processMatches
  rw [List.foldl_cons]
  have hstep : (((assocFind fm.1 posMap).getD []).foldl (fun acc2 posTag =>
      updateViterbiTable acc2 fm.2 posTag prevState
        ⟨fm.1, posTag, TokType.text, transProbPolicy transitionMap prevPos posTag⟩
        (transProbPolicy transitionMap prevPos posTag)) tbl).getD fm.2 [] ≠ [] := by
    obtain ⟨t, ts, hts⟩ : ∃ t ts, (assocFind fm.1 posMap).getD [] = t :: ts := by
      cases h : (assocFind fm.1 posMap).getD [] with
      | nil => exact absurd h hpos
      | cons t ts => exact ⟨t, ts, rfl⟩
    rw [hts, List.foldl_cons]
    refine @List.foldlRecOn _ _ (fun (x : List ViterbiRow) => x.getD fm.2 [] ≠ []) ts _ _ ?_ ?_
    · exact update_target_nonempty tbl fm.2 t prevState _ _ hlen
    · intro acc hacc posTag hposTag
      exact update_row_nonempty_pres acc _ _ _ _ _ _ hacc
  refine @List.foldlRecOn _ _ (fun (x : List ViterbiRow) => x.getD fm.2 [] ≠ []) rest _ _ hstep ?_
  intro acc hacc fm2 hfm2
  refine @List.foldlRecOn _ _ (fun (x : List ViterbiRow) => x.getD fm.2 [] ≠ []) _ _ acc hacc ?_
  intro acc2 hacc2 posTag hposTag
  exact update_row_nonempty_pres acc2 _ _ _ _ _ _ hacc2

/-- Helper: a state at `idx` proposes at least one state strictly beyond
`idx` when every matched morph carries a PoS tag. -/
theorem processState_progress (trie : TrieNode) (posMap : List (List Char × List String))
    (transitionMap : List (String × List (String × ℚ))) (text : List Char)
    (tbl : List ViterbiRow) (idx : Nat) (prevPos : String) (prevState : VState)
    (hlen : tbl.length = text.length + 1) (hidx : idx < text.length)
    (hpos : ∀ p ∈ findMorphsFromTrie trie text idx, (assocFind p.1 posMap).getD [] ≠ []) :
    ∃ j, idx < j ∧ j ≤ text.length ∧
      (processState trie posMap transitionMap text tbl idx prevPos prevState).getD j []
        ≠ [] := by
  rw [processState_eq]
  split
  · rename_i hnone
    rw [List.get?_eq_getElem?, List.getElem?_eq_none_iff] at hnone
    omega
  · rename_i c hc
    split
    · rename_i hw
      have hget : text.get ⟨idx, hidx⟩ = c := get?_some_get text idx c hc hidx
      have hgt : idx < wsEnd text idx := wsEnd_gt text idx hidx (by rw [hget]; exact hw)
      have hle : wsEnd text idx ≤ text.length := (wsEnd_spec text idx).2.1 (by omega)
      exact ⟨wsEnd text idx, hgt, hle,
        update_target_nonempty tbl _ _ _ _ _ (by omega)⟩
    · split
      · refine ⟨idx + 1, by omega, by omega, ?_⟩
        refine update_target_nonempty _ _ _ _ _ _ ?_
        rw [processMatches_length]
        omega
      · rename_i hemp
        obtain ⟨fm, rest, hfr⟩ : ∃ fm rest, findMorphsFromTrie trie text idx = fm :: rest := by
          cases h : findMorphsFromTrie trie text idx with
          | nil => rw [h] at hemp; exact absurd rfl hemp
          | cons fm rest => exact ⟨fm, rest, rfl⟩
        have hmem : fm ∈ findMorphsFromTrie trie text idx := by
          rw [hfr]; exact List.mem_cons_self fm rest
        obtain ⟨h1, h2, -, -, -⟩ := findMorphs_bounds trie text idx fm.1 fm.2 hmem
        rw [hfr]
        exact ⟨fm.2, h1, h2,
          processMatches_target posMap transitionMap prevPos prevState fm rest tbl
            (hpos fm hmem) (by omega)⟩

/-- Helper: processing a populated row advances the frontier. -/
theorem processRow_progress (trie : TrieNode) (posMap : List (List Char × List String))
    (transitionMap : List (String × List (String × ℚ))) (text : List Char)
    (tbl : List ViterbiRow) (idx : Nat)
    (hlen : tbl.length = text.length + 1) (hidx : idx < text.length)
    (hrow : tbl.getD idx [] ≠ [])
    (hpos : ∀ p ∈ findMorphsFromTrie trie text idx, (assocFind p.1 posMap).getD [] ≠ []) :
    ∃ j, idx < j ∧ j ≤ text.length ∧
      (processRow trie posMap transitionMap text tbl idx).getD j [] ≠ [] := by
  unfold processRow
  obtain ⟨e, es, hes⟩ : ∃ e es, tbl.getD idx [] = e :: es := by
    cases h : tbl.getD idx [] with
    | nil => exact absurd h hrow
    | cons e es => exact ⟨e, es, rfl⟩
  rw [hes, List.foldl_cons]
  obtain ⟨j, hj1, hj2, hne⟩ := processState_progress trie posMap transitionMap text tbl idx
    e.1 e.2 hlen hidx hpos
  refine ⟨j, hj1, hj2, ?_⟩
  refine @List.foldlRecOn _ _ (fun (x : List ViterbiRow) => x.getD j [] ≠ []) es _ _ hne ?_
  intro acc hacc entry hentry
  exact processState_nonempty_pres trie posMap transitionMap text acc idx entry.1 entry.2 j hacc

/-- C6: when every morph the trie emits on this text has at least one PoS
tag in the PoS map, the always-available skip rule keeps the engine moving:
after the forward pass the DP row at N = text length is populated (shown
for every text, in particular non-empty ones), so the engine never
dead-ends. -/
theorem viterbi_progress (trie : TrieNode) (posMap : List (List Char × List String))
    (transitionMap : List (String × List (String × ℚ))) (text : List Char)
    (hpos : ∀ start, start < text.length →
      ∀ p ∈ findMorphsFromTrie trie text start, (assocFind p.1 posMap).getD [] ≠ []) :
    (runForward trie posMap transitionMap text).getD text.length [] ≠ [] := by
  have hlenF : ∀ k,
      ((List.range k).foldl (processRow trie posMap transitionMap text)
        (initTable text)).length = text.length + 1 := by
    intro k
    induction k with
    | zero =>
      simp [initTable]
    | succ k ih =>
      rw [List.range_succ, List.foldl_append, List.foldl_cons, List.foldl_nil,
        processRow_length]
      exact ih
  have H : ∀ k, k ≤ text.length →
      ∃ j, k ≤ j ∧ j ≤ text.length ∧
        ((List.range k).foldl (processRow trie posMap transitionMap text)
          (initTable text)).getD j [] ≠ [] := by
    intro k
    induction k with
    | zero =>
      intro hk
      refine ⟨0, le_refl 0, by omega, ?_⟩
      rw [List.range_zero, List.foldl_nil, initTable_getD]
      simp
    | succ k ih =>
      intro hk
      obtain ⟨j, hj1, hj2, hne2⟩ := ih (by omega)
      rw [List.range_succ, List.foldl_append, List.foldl_cons, List.foldl_nil]
      by_cases hjk : j = k
      · subst hjk
        obtain ⟨j2, ha, hb, hc2⟩ := processRow_progress trie posMap transitionMap text _ j
          (hlenF j) (by omega) hne2 (hpos j (by omega))
        exact ⟨j2, by omega, hb, hc2⟩
      · refine ⟨j, by omega, hj2, ?_⟩
        exact processRow_nonempty_pres trie posMap transitionMap text _ k j hne2
  obtain ⟨j, hj1, hj2, hne2⟩ := H text.length (le_refl _)
  have hj : j = text.length := by omega
  subst hj
  exact hne2

/-- Witness: progress at the concrete C4 model. -/
theorem viterbi_progress_witness :
    (runForward (buildMorphTrie [(['今','日'], "noun"), (['は'], "particle")])
      (buildPosMap [(['今','日'], "noun"), (['は'], "particle")])
      [("noun", [("particle", (1 : ℚ)/2)])] ['今','日','は']).getD 3 [] ≠ [] :=
  viterbi_progress (buildMorphTrie [(['今','日'], "noun"), (['は'], "particle")])
    (buildPosMap [(['今','日'], "noun"), (['は'], "particle")])
    [("noun", [("particle", (1 : ℚ)/2)])] ['今','日','は'] (by decide)

/-- Helper: length of an in-bounds slice. -/
theorem textSlice_length (text : List Char) (i j : Nat) (hij : i ≤ j) (hj : j ≤ text.length) :
    (textSlice text i j).length = j - i := by
  unfold textSlice
  rw [List.length_take, List.length_drop]
  omega

/-- Helper: characters of a slice, read at text positions. -/
theorem textSlice_getD (text : List Char) (i j k : Nat) (d : Char)
    (hik : i ≤ k) (hkj : k < j) (hj : j ≤ text.length) :
    (textSlice text i j).getD (k - i) d = text.getD k d := by
  unfold textSlice
  have hlt : k - i < ((text.drop i).take (j - i)).length := by
    rw [List.length_take, List.length_drop]
    omega
  rw [List.getD_eq_getElem _ _ hlt, List.getElem_take, List.getElem_drop,
    List.getD_eq_getElem _ _ (by omega)]
  congr 1
  omega

/-- Helper: every character of a slice sits at some covered text position. -/
theorem mem_textSlice (text : List Char) (i j : Nat) (c : Char)
    (hc : c ∈ textSlice text i j) :
    ∃ k, i ≤ k ∧ k < j ∧ k < text.length ∧ text.getD k ' ' = c := by
  obtain ⟨m, hm, he⟩ := List.getElem_of_mem hc
  unfold textSlice at hm he
  have hm2 : m < j - i ∧ i + m < text.length := by
    rw [List.length_take, List.length_drop] at hm
    omega
  refine ⟨i + m, by omega, by omega, hm2.2, ?_⟩
  rw [List.getD_eq_getElem _ _ hm2.2]
  rw [List.getElem_take, List.getElem_drop] at he
  exact he

/-- Helper: an in-bounds `getD` read is a member. -/
theorem getD_mem_of_lt (l : List Char) (n : Nat) (d : Char) (h : n < l.length) :
    l.getD n d ∈ l := by
  rw [List.getD_eq_getElem _ _ h]
  exact List.getElem_mem h

/-- Helper: two maximal whitespace runs sharing a position coincide. -/
theorem maxRun_eq (text : List Char) (a b a2 b2 k : Nat)
    (h1 : MaxRun text a b) (h2 : MaxRun text a2 b2)
    (hk1 : a ≤ k) (hk2 : k < b) (hk3 : a2 ≤ k) (hk4 : k < b2) : a = a2 ∧ b = b2 := by
  obtain ⟨hab, hbl, hws1, hleft1, hright1⟩ := h1
  obtain ⟨hab2, hbl2, hws2, hleft2, hright2⟩ := h2
  have ha : a = a2 := by
    by_contra hne
    rcases Nat.lt_or_ge a a2 with hlt | hge
    · have hws := hws1 (a2 - 1) (by omega) (by omega)
      rcases hleft2 with h0 | hnw
      · omega
      · rw [hws] at hnw; cases hnw
    · have hlt2 : a2 < a := by omega
      have hws := hws2 (a - 1) (by omega) (by omega)
      rcases hleft1 with h0 | hnw
      · omega
      · rw [hws] at hnw; cases hnw
  have hb : b = b2 := by
    by_contra hne
    rcases Nat.lt_or_ge b b2 with hlt | hge
    · have hws := hws2 b (by omega) (by omega)
      rcases hright1 with h0 | hnw
      · omega
      · rw [hws] at hnw; cases hnw
    · have hlt2 : b2 < b := by omega
      have hws := hws1 b2 (by omega) (by omega)
      rcases hright2 with h0 | hnw
      · omega
      · rw [hws] at hnw; cases hnw
  exact ⟨ha, hb⟩

/-- Helper: concatenated length of a token pushed in front. -/
theorem concatTokens_cons_length (t : Token) (l : List Token) :
    (concatTokens (t :: l)).length = t.morph.length + (concatTokens l).length := by
  unfold concatTokens
  simp [List.length_append]

/-- Helper: whitespace spans of an appended token list. -/
theorem wsSpansFrom_append (l1 l2 : List Token) :
    ∀ n, wsSpansFrom n (l1 ++ l2) =
      wsSpansFrom n l1 ++ wsSpansFrom (n + (concatTokens l1).length) l2 := by
  induction l1 with
  | nil =>
    intro n
    simp [wsSpansFrom, concatTokens]
  | cons t l ih =>
    intro n
    simp only [List.cons_append, wsSpansFrom, concatTokens_cons_length, List.append_assoc]
    rw [show l.append l2 = l ++ l2 from rfl, ih (n + t.morph.length), Nat.add_assoc]

/-- Helper: at the frontier of a reachable chain whose dictionary morphs
contain no whitespace, a whitespace-token frontier sits at the end of its
run and any other frontier has a non-whitespace character just before it. -/
theorem goodChain_boundary (trie : TrieNode) (text : List Char) (i : Nat) (rts : List Token)
    (h : GoodChain trie text i rts)
    (hmorphs : ∀ start, start < text.length →
      ∀ p ∈ findMorphsFromTrie trie text start, ∀ c ∈ p.1, isWs c = false) :
    (rts = [] → i = 0) ∧
    (∀ t ts, rts = t :: ts →
      (t.type = TokType.whitespace → (i = text.length ∨ isWs (text.getD i ' ') = false)) ∧
      (t.type ≠ TokType.whitespace → 0 < i ∧ isWs (text.getD (i - 1) ' ') = false)) := by
  cases h with
  | nil => exact ⟨fun _ => rfl, fun t ts hts => by cases hts⟩
  | @ws i0 c rts0 hc hw hch =>
    refine ⟨fun hh => (by cases hh), fun t ts hts => ?_⟩
    injection hts with h1 h2
    refine ⟨fun _ => ?_, fun hne => ?_⟩
    · have hlen := (get?_some_facts text i0 c hc).1
      exact (wsEnd_spec text i0).2.2.2 (by omega)
    · rw [← h1] at hne
      exact absurd rfl hne
  | @txt i0 e m tag p rts0 hm hch =>
    refine ⟨fun hh => (by cases hh), fun t ts hts => ?_⟩
    injection hts with h1 h2
    refine ⟨fun hty => ?_, fun _ => ?_⟩
    · rw [← h1] at hty
      exact TokType.noConfusion hty
    obtain ⟨hb1, hb2, hb3, hb4, hb5⟩ := findMorphs_bounds trie text i0 m i hm
    refine ⟨by omega, ?_⟩
    have hchar : text.getD (i - 1) ' ' = m.getD (i - 1 - i0) ' ' := by
      rw [← textSlice_getD text i0 i (i - 1) ' ' (by omega) (by omega) hb2, ← hb3]
    rw [hchar]
    apply hmorphs i0 hb5 (m, i) hm
    apply getD_mem_of_lt
    rw [hb3, textSlice_length text i0 i (by omega) hb2]
    omega
  | @skip i0 c rts0 hc hw hch =>
    refine ⟨fun hh => (by cases hh), fun t ts hts => ?_⟩
    injection hts with h1 h2
    refine ⟨fun hty => ?_, fun _ => ?_⟩
    · rw [← h1] at hty
      exact TokType.noConfusion hty
    refine ⟨by omega, ?_⟩
    have : i0 + 1 - 1 = i0 := by omega
    rw [this, (get?_some_facts text i0 c hc).2]
    exact hw

/-- Helper: along any reachable chain (no whitespace inside dictionary
morphs), the whitespace-token spans are exactly the maximal whitespace runs
finishing within the processed prefix, in order, with whitespace tokens all
whitespace and other tokens whitespace-free. -/
theorem goodChain_wsSpans (trie : TrieNode) (text : List Char)
    (hmorphs : ∀ start, start < text.length →
      ∀ p ∈ findMorphsFromTrie trie text start, ∀ c ∈ p.1, isWs c = false)
    (i : Nat) (rts : List Token) (h : GoodChain trie text i rts) :
    (∀ a b, ((a, b) ∈ wsSpansFrom 0 rts.reverse ↔ (MaxRun text a b ∧ b ≤ i))) ∧
    (wsSpansFrom 0 rts.reverse).Pairwise (fun x y => x.2 ≤ y.1) ∧
    (∀ t ∈ rts, t.type = TokType.whitespace → ∀ c ∈ t.morph, isWs c = true) ∧
    (∀ t ∈ rts, t.type ≠ TokType.whitespace → ∀ c ∈ t.morph, isWs c = false) := by
  induction h with
  | nil =>
    refine ⟨fun a b => ?_, by simp [wsSpansFrom], by simp, by simp⟩
    simp only [List.reverse_nil, wsSpansFrom, List.not_mem_nil, false_iff]
    rintro ⟨⟨hab, -, -, -, -⟩, hb⟩
    omega
  | @ws i0 c rts0 hc hw hch ih =>
    obtain ⟨ih1, ih2, ih3, ih4⟩ := ih
    have hi0len : i0 < text.length := (get?_some_facts text i0 c hc).1
    have hgetD : isWs (text.getD i0 ' ') = true := by
      rw [(get?_some_facts text i0 c hc).2]; exact hw
    have hgt : i0 < wsEnd text i0 :=
      wsEnd_gt text i0 hi0len (by rw [get?_some_get text i0 c hc hi0len]; exact hw)
    have hle : wsEnd text i0 ≤ text.length := (wsEnd_spec text i0).2.1 (by omega)
    have hlen0 : (concatTokens rts0.reverse).length = i0 := by
      rw [goodChain_concat trie text i0 rts0 hch, List.length_take]
      have := goodChain_le trie text i0 rts0 hch
      omega
    have hmlen : (textSlice text i0 (wsEnd text i0)).length = wsEnd text i0 - i0 :=
      textSlice_length text i0 (wsEnd text i0) (by omega) hle
    have harith : i0 + (wsEnd text i0 - i0) = wsEnd text i0 := by omega
    have hspan : wsSpansFrom 0
        ((⟨textSlice text i0 (wsEnd text i0), "", TokType.whitespace, 1⟩ :: rts0).reverse) =
        wsSpansFrom 0 rts0.reverse ++ [(i0, wsEnd text i0)] := by
      rw [List.reverse_cons, wsSpansFrom_append, hlen0, Nat.zero_add]
      simp only [wsSpansFrom, if_pos rfl, hmlen, harith, List.append_nil, if_true]
    have hrun : MaxRun text i0 (wsEnd text i0) := by
      refine ⟨hgt, hle, fun k hk1 hk2 => (wsEnd_spec text i0).2.2.1 k hk1 hk2, ?_,
        (wsEnd_spec text i0).2.2.2 (by omega)⟩
      obtain ⟨hbnil, hbcons⟩ := goodChain_boundary trie text i0 rts0 hch hmorphs
      cases rts0 with
      | nil => left; exact hbnil rfl
      | cons t ts =>
        obtain ⟨hbws, hbother⟩ := hbcons t ts rfl
        by_cases hty : t.type = TokType.whitespace
        · rcases hbws hty with h0 | h0
          · omega
          · rw [hgetD] at h0; cases h0
        · right
          exact (hbother hty).2
    rw [hspan]
    refine ⟨fun a b => ?_, ?_, ?_, ?_⟩
    · constructor
      · intro hmem
        rcases List.mem_append.mp hmem with hold | hnew
        · obtain ⟨hMR, hb⟩ := (ih1 a b).mp hold
          exact ⟨hMR, by omega⟩
        · simp only [List.mem_singleton, Prod.mk.injEq] at hnew
          obtain ⟨rfl, rfl⟩ := hnew
          exact ⟨hrun, le_refl _⟩
      · rintro ⟨hMR, hb⟩
        by_cases hbi : b ≤ i0
        · exact List.mem_append_left _ ((ih1 a b).mpr ⟨hMR, hbi⟩)
        · have hk : a ≤ b - 1 ∧ b - 1 < b ∧ i0 ≤ b - 1 ∧ b - 1 < wsEnd text i0 := by
            obtain ⟨hab, -, -, -, -⟩ := hMR
            omega
          obtain ⟨ha2, hb2⟩ := maxRun_eq text a b i0 (wsEnd text i0) (b - 1) hMR hrun
            hk.1 hk.2.1 hk.2.2.1 hk.2.2.2
          subst ha2
          subst hb2
          exact List.mem_append_right _ (List.mem_singleton.mpr rfl)
    · rw [List.pairwise_append]
      refine ⟨ih2, by simp, fun x hx y hy => ?_⟩
      simp only [List.mem_singleton] at hy
      subst hy
      exact ((ih1 x.1 x.2).mp hx).2
    · intro t ht hty cc hcc
      rcases List.mem_cons.mp ht with rfl | ht2
      · obtain ⟨k, hk1, hk2, hk3, hk4⟩ := mem_textSlice text i0 (wsEnd text i0) cc hcc
        rw [← hk4]
        exact (wsEnd_spec text i0).2.2.1 k hk1 hk2
      · exact ih3 t ht2 hty cc hcc
    · intro t ht hty cc hcc
      rcases List.mem_cons.mp ht with rfl | ht2
      · exact absurd rfl hty
      · exact ih4 t ht2 hty cc hcc
  | @txt i0 e m tag p rts0 hm hch ih =>
    obtain ⟨ih1, ih2, ih3, ih4⟩ := ih
    obtain ⟨hb1, hb2, hb3, hb4, hb5⟩ := findMorphs_bounds trie text i0 m e hm
    have hlen0 : (concatTokens rts0.reverse).length = i0 := by
      rw [goodChain_concat trie text i0 rts0 hch, List.length_take]
      have := goodChain_le trie text i0 rts0 hch
      omega
    have hspan : wsSpansFrom 0 ((⟨m, tag, TokType.text, p⟩ :: rts0).reverse) =
        wsSpansFrom 0 rts0.reverse := by
      rw [List.reverse_cons, wsSpansFrom_append, hlen0, Nat.zero_add]
      simp [wsSpansFrom]
    have hnws : ∀ k, i0 ≤ k → k < e → isWs (text.getD k ' ') = false := by
      intro k hk1 hk2
      have hh : text.getD k ' ' = m.getD (k - i0) ' ' := by
        rw [← textSlice_getD text i0 e k ' ' hk1 hk2 hb2, ← hb3]
      rw [hh]
      apply hmorphs i0 hb5 (m, e) hm
      apply getD_mem_of_lt
      rw [hb3, textSlice_length text i0 e (by omega) hb2]
      omega
    rw [hspan]
    refine ⟨fun a b => ?_, ih2, ?_, ?_⟩
    · constructor
      · intro hmem
        obtain ⟨hMR, hb⟩ := (ih1 a b).mp hmem
        exact ⟨hMR, by omega⟩
      · rintro ⟨hMR, hb⟩
        refine (ih1 a b).mpr ⟨hMR, ?_⟩
        by_contra hbi
        push_neg at hbi
        obtain ⟨hab, hble, hws, -, -⟩ := hMR
        have h1 := hws (b - 1) (by omega) (by omega)
        have h2 := hnws (b - 1) (by omega) (by omega)
        rw [h1] at h2
        cases h2
    · intro t ht hty cc hcc
      rcases List.mem_cons.mp ht with rfl | ht2
      · exact TokType.noConfusion hty
      · exact ih3 t ht2 hty cc hcc
    · intro t ht hty cc hcc
      rcases List.mem_cons.mp ht with rfl | ht2
      · exact hmorphs i0 hb5 (m, e) hm cc hcc
      · exact ih4 t ht2 hty cc hcc
  | @skip i0 c rts0 hc hw hch ih =>
    obtain ⟨ih1, ih2, ih3, ih4⟩ := ih
    have hi0len : i0 < text.length := (get?_some_facts text i0 c hc).1
    have hlen0 : (concatTokens rts0.reverse).length = i0 := by
      rw [goodChain_concat trie text i0 rts0 hch, List.length_take]
      have := goodChain_le trie text i0 rts0 hch
      omega
    have hspan : wsSpansFrom 0 ((⟨[c], "", TokType.skipped, smallProb⟩ :: rts0).reverse) =
        wsSpansFrom 0 rts0.reverse := by
      rw [List.reverse_cons, wsSpansFrom_append, hlen0, Nat.zero_add]
      simp [wsSpansFrom]
    have hnws : isWs (text.getD i0 ' ') = false := by
      rw [(get?_some_facts text i0 c hc).2]
      exact hw
    rw [hspan]
    refine ⟨fun a b => ?_, ih2, ?_, ?_⟩
    · constructor
      · intro hmem
        obtain ⟨hMR, hb⟩ := (ih1 a b).mp hmem
        exact ⟨hMR, by omega⟩
      · rintro ⟨hMR, hb⟩
        refine (ih1 a b).mpr ⟨hMR, ?_⟩
        by_contra hbi
        push_neg at hbi
        obtain ⟨hab, hble, hws, -, -⟩ := hMR
        have hbeq : b - 1 = i0 := by omega
        have h1 := hws (b - 1) (by omega) (by omega)
        rw [hbeq, hnws] at h1
        cases h1
    · intro t ht hty cc hcc
      rcases List.mem_cons.mp ht with rfl | ht2
      · exact TokType.noConfusion hty
      · exact ih3 t ht2 hty cc hcc
    · intro t ht hty cc hcc
      rcases List.mem_cons.mp ht with rfl | ht2
      · simp only [List.mem_singleton] at hcc
        rw [hcc]
        exact hw
      · exact ih4 t ht2 hty cc hcc

/-- C5 (amended): when the forward pass reaches a terminal state and no
dictionary morph matched by the trie contains a whitespace character, the
whitespace-typed tokens of the output are in bijection with the maximal
whitespace runs of the input — each run appears as exactly one whitespace
token spanning the whole run (spans are disjoint and ordered), whitespace
tokens hold only whitespace, and no other token contains any whitespace. -/
theorem whitespace_atomicity (text : List Char) (trie : TrieNode)
    (posMap : List (List Char × List String))
    (transitionMap : List (String × List (String × ℚ)))
    (recombinationMap : List (String × List String))
    (hterm : (runForward trie posMap transitionMap text).getD text.length [] ≠ [])
    (hmorphs : ∀ start, start < text.length →
      ∀ p ∈ findMorphsFromTrie trie text start, ∀ c ∈ p.1, isWs c = false) :
    (∀ a b, ((a, b) ∈ wsSpansFrom 0 (wordsTokens
        (viterbiSegment text trie posMap transitionMap recombinationMap)) ↔
      MaxRun text a b)) ∧
    (wsSpansFrom 0 (wordsTokens
        (viterbiSegment text trie posMap transitionMap recombinationMap))).Pairwise
      (fun x y => x.2 ≤ y.1) ∧
    (∀ t ∈ wordsTokens (viterbiSegment text trie posMap transitionMap recombinationMap),
      t.type = TokType.whitespace → ∀ c ∈ t.morph, isWs c = true) ∧
    (∀ t ∈ wordsTokens (viterbiSegment text trie posMap transitionMap recombinationMap),
      t.type ≠ TokType.whitespace → ∀ c ∈ t.morph, isWs c = false) := by
  obtain ⟨st, hbest⟩ := bestState_ne_empty _ hterm
  obtain ⟨pp, hmem⟩ := bestState_mem _ st hbest
  have hchain := runForward_tableGood trie posMap transitionMap text text.length (pp, st) hmem
  obtain ⟨g1, g2, g3, g4⟩ :=
    goodChain_wsSpans trie text hmorphs text.length (collectTokens st) hchain
  have hseg : wordsTokens (viterbiSegment text trie posMap transitionMap recombinationMap) =
      (collectTokens st).reverse := by
    simp only [viterbiSegment, hbest]
    rw [wordsTokens_recombine]
  rw [hseg]
  refine ⟨fun a b => ?_, g2, ?_, ?_⟩
  · rw [g1 a b]
    constructor
    · exact fun h => h.1
    · intro h
      exact ⟨h, h.2.1⟩
  · intro t ht
    exact g3 t (List.mem_reverse.mp ht)
  · intro t ht
    exact g4 t (List.mem_reverse.mp ht)

unseal Rat.mul Rat.inv in
/-- C5 counterexample: with the dictionary morph "a " (trailing space) and
input "a b", the maximal whitespace run [1,2) appears in no
whitespace-typed token at all — the space is embedded inside the text token
"a " — although the output covers the input. -/
theorem whitespace_atomicity_counterexample :
    MaxRun ['a',' ','b'] 1 2 ∧
    wsSpansFrom 0 (wordsTokens (viterbiSegment ['a',' ','b']
      (buildMorphTrie [(['a',' '], "noun")]) (buildPosMap [(['a',' '], "noun")]) [] [])) = [] ∧
    concatTokens (wordsTokens (viterbiSegment ['a',' ','b']
      (buildMorphTrie [(['a',' '], "noun")]) (buildPosMap [(['a',' '], "noun")]) [] [])) =
      ['a',' ','b'] := by
  refine ⟨⟨by decide, by decide, ?_, Or.inr (by decide), Or.inr (by decide)⟩,
    by decide, by decide⟩
  intro k h1 h2
  have hk : k = 1 := by omega
  subst hk
  decide

unseal Rat.mul Rat.inv in
/-- Witness: whitespace atomicity at a concrete whitespace-free dictionary. -/
theorem whitespace_atomicity_witness :
    (∀ a b, ((a, b) ∈ wsSpansFrom 0 (wordsTokens
        (viterbiSegment ['a',' ','b'] (buildMorphTrie [(['a'], "n"), (['b'], "n")])
          (buildPosMap [(['a'], "n"), (['b'], "n")]) [] [])) ↔
      MaxRun ['a',' ','b'] a b)) ∧
    (wsSpansFrom 0 (wordsTokens
        (viterbiSegment ['a',' ','b'] (buildMorphTrie [(['a'], "n"), (['b'], "n")])
          (buildPosMap [(['a'], "n"), (['b'], "n")]) [] []))).Pairwise
      (fun x y => x.2 ≤ y.1) ∧
    (∀ t ∈ wordsTokens (viterbiSegment ['a',' ','b']
        (buildMorphTrie [(['a'], "n"), (['b'], "n")])
        (buildPosMap [(['a'], "n"), (['b'], "n")]) [] []),
      t.type = TokType.whitespace → ∀ c ∈ t.morph, isWs c = true) ∧
    (∀ t ∈ wordsTokens (viterbiSegment ['a',' ','b']
        (buildMorphTrie [(['a'], "n"), (['b'], "n")])
        (buildPosMap [(['a'], "n"), (['b'], "n")]) [] []),
      t.type ≠ TokType.whitespace → ∀ c ∈ t.morph, isWs c = false) :=
  whitespace_atomicity ['a',' ','b'] (buildMorphTrie [(['a'], "n"), (['b'], "n")])
    (buildPosMap [(['a'], "n"), (['b'], "n")]) [] [] (by decide) (by decide)
